import Mathlib

/-!
Verification of the lexical analyzer in `final.py` (CS_453_Compiler_Design).

The Python lexer scans a source string through an index `i`, with
`peek` returning the NUL character `'\x00'` past the end of the input.
We embed the scanner state by its remaining input (the suffix
`source[i:]` as a `List Char`), the 1-based `line`/`col` cursor, and the
two lexical-table sets (`identifiers`, `constants`), modelled as
duplicate-free insertion-ordered lists.  All scanning loops are
structurally recursive on the remaining input; the top-level `tokenize`
loop, whose body consumes input through sub-lexers, takes explicit fuel
`source.length + 1`, shown sufficient because every iteration consumes
at least one character (`tokenizeLoopF_fuel_irrelevant`).

Python's `str.isdigit`/`isalpha`/`isalnum`/`isspace` are modelled by
their ASCII restrictions, which agree with Python on every input
considered here.
-/

namespace Lexer

/-- ASCII restriction of Python's `str.isdigit` for a single character. -/
def pyIsDigit (c : Char) : Bool :=
  '0' ≤ c && c ≤ '9'

/-- ASCII restriction of Python's `str.isalpha` for a single character. -/
def pyIsAlpha (c : Char) : Bool :=
  ('a' ≤ c && c ≤ 'z') || ('A' ≤ c && c ≤ 'Z')

/-- ASCII restriction of Python's `str.isalnum` for a single character. -/
def pyIsAlnum (c : Char) : Bool :=
  pyIsAlpha c || pyIsDigit c

/-- Python's `str.isspace` restricted to ASCII whitespace. -/
def pyIsSpace (c : Char) : Bool :=
  c == ' ' || c == '\t' || c == '\n' || c == '\x0d' || c == '\x0b' || c == '\x0c'

/-- Tokens (`final.py`, class `Token`): a type tag (`"KW"`, `"IDENT"`,
`"INT"`, `"FLOAT"`, `"STRING"`, `"OP"`, `"SEP"`, `"EOF"`), the value
string, and the 1-based line and column where the token begins. -/
structure Token where
  type : String
  value : String
  line : Nat
  col : Nat
deriving Repr, DecidableEq

/-- The three `LexerError` raise sites of `final.py`, with the line and
column interpolated into the raised message. -/
inductive LexError where
  | unterminatedString (line col : Nat)
  | unterminatedBlockComment (line col : Nat)
  | unexpectedChar (c : Char) (line col : Nat)
deriving Repr, DecidableEq

/-- Scanner state: remaining input (the suffix `source[i:]`), cursor
position, and the lexical-table sets of class `Lexer`. -/
structure State where
  rest : List Char
  line : Nat
  col : Nat
  identifiers : List String
  constants : List String
deriving Repr, DecidableEq

/-- Remaining input plus cursor position, the part of the state the
character-consuming loops act on. -/
structure Cursor where
  rest : List Char
  line : Nat
  col : Nat
deriving Repr, DecidableEq

/-- `Lexer.KEYWORDS` (`final.py:35`). -/
def KEYWORDS : List String :=
  ["let", "const", "if", "else", "while", "for",
   "fn", "return", "print", "true", "false", "null"]

/-- `Lexer.OPERATORS` (`final.py:41`), in source order: candidates are
tried first to last. -/
def OPERATORS : List String :=
  ["++", "--", "->",
   "===", "==", "!=", "<=", ">=",
   "+=", "-=", "*=", "/=",
   "&&", "||",
   "=", "+", "-", "*", "/", "%", "<", ">", "!"]

/-- `Lexer.SEPARATORS` (`final.py:50`). -/
def SEPARATORS : List Char :=
  ['(', ')', '\x7b', '\x7d', '[', ']', ',', ';', ':', '.']

/-- `Lexer.LINE_COMMENT` (`final.py:53`). -/
def LINE_COMMENT : String := "//"

/-- `Lexer.BLOCK_COMMENT_START` (`final.py:54`). -/
def BLOCK_COMMENT_START : String := "/*"

/-- `Lexer.BLOCK_COMMENT_END` (`final.py:55`). -/
def BLOCK_COMMENT_END : String := "*/"

/-- `Lexer.peek` on a remaining-input list: the character `k` places
ahead, or NUL past the end of input (`final.py:68`). -/
def peekL (r : List Char) (k : Nat) : Char :=
  r.getD k '\x00'

/-- `Lexer.peek` on the scanner state. -/
def peek (s : State) (k : Nat) : Char :=
  peekL s.rest k

/-- The line/column update performed by one `Lexer.advance`
(`final.py:72`): a newline moves to column 1 of the next line, any other
character moves one column right. -/
def stepPos (c : Char) (line col : Nat) : Nat × Nat :=
  if c == '\n' then (line + 1, 1) else (line, col + 1)

/-- `Lexer.advance` (`final.py:72`): return the current character and
consume it, updating the cursor. -/
def advance (s : State) : Char × State :=
  let ch := peek s 0
  let p := stepPos ch s.line s.col
  (ch, { s with rest := s.rest.tail, line := p.1, col := p.2 })

/-- `Lexer.startswith` (`final.py:82`): every character of `p` matches
the corresponding `peek`, with the NUL sentinel past end of input. -/
def startswithL (r : List Char) (p : List Char) : Bool :=
  match p with
  | [] => true
  | c :: ps => (peekL r 0 == c) && startswithL r.tail ps

/-- `Lexer.startswith` on the scanner state. -/
def startswith (s : State) (p : List Char) : Bool :=
  startswithL s.rest p

/-- Python `set.add` on an insertion-ordered duplicate-free list:
append unless already present. -/
def insertStr (l : List String) (x : String) : List String :=
  if l.contains x then l else l ++ [x]

/-- The `while self.peek().isalnum() or self.peek() == "_"` loop of
`lex_identifier_or_keyword` (`final.py:92`): consume a maximal run of
alphanumeric/underscore characters.  Returns the accumulated run and
the cursor after it.  The `[]` case is the loop exiting on the NUL
sentinel. -/
def lexIdentLoop (r : List Char) (line col : Nat) (acc : List Char) :
    List Char × Cursor :=
  match r with
  | [] => (acc, ⟨[], line, col⟩)
  | c :: cs =>
    if pyIsAlnum c || c == '_' then
      let p := stepPos c line col
      lexIdentLoop cs p.1 p.2 (acc ++ [c])
    else (acc, ⟨c :: cs, line, col⟩)

/-- A `while self.peek().isdigit()` loop of `lex_number`
(`final.py:112`, also lines 121 and 134): consume a maximal digit run. -/
def lexDigitsLoop (r : List Char) (line col : Nat) (acc : List Char) :
    List Char × Cursor :=
  match r with
  | [] => (acc, ⟨[], line, col⟩)
  | c :: cs =>
    if pyIsDigit c then
      let p := stepPos c line col
      lexDigitsLoop cs p.1 p.2 (acc ++ [c])
    else (acc, ⟨c :: cs, line, col⟩)

/-- `Lexer.lex_identifier_or_keyword` (`final.py:89`). -/
def lexIdentifierOrKeyword (s : State) : Token × State :=
  let line := s.line
  let col := s.col
  let (cs, cur) := lexIdentLoop s.rest s.line s.col []
  let str := String.mk cs
  if KEYWORDS.contains str then
    (⟨"KW", str, line, col⟩,
     { s with rest := cur.rest, line := cur.line, col := cur.col })
  else
    (⟨"IDENT", str, line, col⟩,
     { rest := cur.rest, line := cur.line, col := cur.col,
       identifiers := insertStr s.identifiers str,
       constants := s.constants })

/-- The fractional-part block of `lex_number` (`final.py:117`):
consumed only when the current character is `.` and the next one is a
digit; `ds` is the number text scanned so far. -/
def lexNumberFrac (ds : List Char) (cur1 : Cursor) : Bool × List Char × Cursor :=
  if peekL cur1.rest 0 == '.' && pyIsDigit (peekL cur1.rest 1) then
    let dot := peekL cur1.rest 0
    let p := stepPos dot cur1.line cur1.col
    let (ds2, curb) := lexDigitsLoop cur1.rest.tail p.1 p.2 []
    (true, ds ++ [dot] ++ ds2, curb)
  else (false, ds, cur1)

/-- The sign step inside the scientific-notation block of `lex_number`
(`final.py:132`): after the `e`/`E` is consumed, an optional `+`/`-` is
consumed. -/
def lexNumberExpSign (cur2 : Cursor) : List Char × Cursor :=
  if peekL cur2.rest 0 == '+' || peekL cur2.rest 0 == '-' then
    let g := peekL cur2.rest 0
    let pg := stepPos g cur2.line cur2.col
    ([g], ⟨cur2.rest.tail, pg.1, pg.2⟩)
  else ([], cur2)

/-- The scientific-notation block of `lex_number` (`final.py:124`):
consumed only when the current character is `e`/`E` followed by a digit
or by a sign and a digit. -/
def lexNumberExp (isF : Bool) (cs : List Char) (cur : Cursor) :
    Bool × List Char × Cursor :=
  if peekL cur.rest 0 == 'e' || peekL cur.rest 0 == 'E' then
    let nxt := peekL cur.rest 1
    let nxt2 := peekL cur.rest 2
    if pyIsDigit nxt || ((nxt == '+' || nxt == '-') && pyIsDigit nxt2) then
      let e := peekL cur.rest 0
      let pe := stepPos e cur.line cur.col
      let (sgn, curs) := lexNumberExpSign ⟨cur.rest.tail, pe.1, pe.2⟩
      let (ds3, curd) := lexDigitsLoop curs.rest curs.line curs.col []
      (true, cs ++ [e] ++ sgn ++ ds3, curd)
    else (isF, cs, cur)
  else (isF, cs, cur)

/-- `Lexer.lex_number` (`final.py:101`): integer part, then the
fractional-part block, then the exponent block; the token is `FLOAT`
exactly when one of the two optional blocks was consumed. -/
def lexNumber (s : State) : Token × State :=
  let line := s.line
  let col := s.col
  let (ds, cur1) := lexDigitsLoop s.rest s.line s.col []
  let (isF2, cs2, cur2) := lexNumberFrac ds cur1
  let (isF3, cs3, cur3) := lexNumberExp isF2 cs2 cur2
  let ttype := if isF3 then "FLOAT" else "INT"
  let str := String.mk cs3
  (⟨ttype, str, line, col⟩,
   { rest := cur3.rest, line := cur3.line, col := cur3.col,
     identifiers := s.identifiers,
     constants := insertStr s.constants str })

/-- The escape table of `lex_string` (`final.py:170`). -/
def escapes (c : Char) : Option Char :=
  if c == 'n' then some '\n'
  else if c == 't' then some '\t'
  else if c == '\\' then some '\\'
  else if c == '\'' then some '\''
  else if c == '"' then some '"'
  else none

/-- The `while True` body of `lex_string` (`final.py:153`): `quote` is
the opening quote character and `sline`/`scol` its position, carried
unchanged into the unterminated-string error.  End of input (or a
literal NUL) raises; a doubled single quote inside a single-quoted
literal decodes to one quote; a backslash escape is decoded through
`escapes`, an unrecognized escape keeps both characters. -/
def lexStringLoop (quote : Char) (sline scol : Nat) :
    List Char → Nat → Nat → List Char → Except LexError (List Char × Cursor)
  | [], _, _, _ => .error (.unterminatedString sline scol)
  | c :: cs, line, col, out =>
    if c == '\x00' then .error (.unterminatedString sline scol)
    else if c == quote then
      match cs, quote == '\'' && peekL cs 0 == '\'' with
      | _ :: cs2, true =>
        let p1 := stepPos c line col
        let p2 := stepPos '\'' p1.1 p1.2
        lexStringLoop quote sline scol cs2 p2.1 p2.2 (out ++ ['\''])
      | _, _ =>
        let p := stepPos c line col
        .ok (out, ⟨cs, p.1, p.2⟩)
    else if c == '\\' then
      match cs with
      | [] =>
        let p1 := stepPos c line col
        let p2 := stepPos '\x00' p1.1 p1.2
        lexStringLoop quote sline scol [] p2.1 p2.2 (out ++ ['\\', '\x00'])
      | e :: cs2 =>
        let p1 := stepPos c line col
        let p2 := stepPos e p1.1 p1.2
        match escapes e with
        | some d => lexStringLoop quote sline scol cs2 p2.1 p2.2 (out ++ [d])
        | none => lexStringLoop quote sline scol cs2 p2.1 p2.2 (out ++ ['\\', e])
    else
      let p := stepPos c line col
      lexStringLoop quote sline scol cs p.1 p.2 (out ++ [c])

/-- `Lexer.lex_string` (`final.py:141`): record the opening quote and
its position, consume it, run the string loop, and on success emit a
`STRING` token positioned at the opening quote, recording the decoded
content in the constants table. -/
def lexString (s : State) : Except LexError (Token × State) :=
  let quote := peek s 0
  let line := s.line
  let col := s.col
  let s1 := (advance s).2
  match lexStringLoop quote line col s1.rest s1.line s1.col [] with
  | .error e => .error e
  | .ok (out, cur) =>
    let str := String.mk out
    .ok (⟨"STRING", str, line, col⟩,
      { rest := cur.rest, line := cur.line, col := cur.col,
        identifiers := s.identifiers,
        constants := insertStr s.constants str })

/-- The `for _ in range(len(op)): self.advance()` of `lex_operator`
(`final.py:187`): advance `n` characters, updating the cursor via
`stepPos` for each consumed character. -/
def advanceBy (r : List Char) (line col : Nat) : Nat → Cursor
  | 0 => ⟨r, line, col⟩
  | n + 1 =>
    let c := peekL r 0
    let p := stepPos c line col
    advanceBy r.tail p.1 p.2 n

/-- The candidate loop of `lex_operator` (`final.py:185`): try each
operator in list order; the first candidate fully matched by
`startswith` is consumed and emitted. -/
def lexOperatorGo (s : State) (line col : Nat) :
    List String → Option (Token × State)
  | [] => none
  | op :: rest =>
    if startswith s op.toList then
      let cur := advanceBy s.rest s.line s.col op.length
      some (⟨"OP", op, line, col⟩,
        { s with rest := cur.rest, line := cur.line, col := cur.col })
    else lexOperatorGo s line col rest

/-- `Lexer.lex_operator` (`final.py:183`). -/
def lexOperator (s : State) : Option (Token × State) :=
  lexOperatorGo s s.line s.col OPERATORS

/-- The `while self.peek() not in ("\n", "\0")` loop of
`skip_comment_if_present` (`final.py:194`): consume up to, but not
including, the newline or end of input. -/
def lineCommentLoop (r : List Char) (line col : Nat) : Cursor :=
  match r with
  | [] => ⟨[], line, col⟩
  | c :: cs =>
    if c != '\n' && c != '\x00' then
      let p := stepPos c line col
      lineCommentLoop cs p.1 p.2
    else ⟨c :: cs, line, col⟩

/-- The `while True` loop after consuming `/*` in
`skip_comment_if_present` (`final.py:200`): end of input (or a literal
NUL) raises an unterminated-block-comment error carrying the current
cursor position; `*/` is consumed and ends the comment; any other
character is consumed. -/
def blockCommentLoop (r : List Char) (line col : Nat) : Except LexError Cursor :=
  match r with
  | [] => .error (.unterminatedBlockComment line col)
  | c :: cs =>
    if c == '\x00' then .error (.unterminatedBlockComment line col)
    else if startswithL (c :: cs) BLOCK_COMMENT_END.toList then
      let p1 := stepPos c line col
      let p2 := stepPos (peekL cs 0) p1.1 p1.2
      .ok ⟨cs.tail, p2.1, p2.2⟩
    else
      let p := stepPos c line col
      blockCommentLoop cs p.1 p.2

/-- `Lexer.skip_comment_if_present` (`final.py:192`): a `//` comment is
skipped up to the newline; a `/*` comment consumes the opener then runs
`blockCommentLoop`; otherwise the state is returned unchanged with
`false`. -/
def skipCommentIfPresent (s : State) : Except LexError (Bool × State) :=
  if startswith s LINE_COMMENT.toList then
    let cur := lineCommentLoop s.rest s.line s.col
    .ok (true, { s with rest := cur.rest, line := cur.line, col := cur.col })
  else if startswith s BLOCK_COMMENT_START.toList then
    let s1 := (advance s).2
    let s2 := (advance s1).2
    match blockCommentLoop s2.rest s2.line s2.col with
    | .error e => .error e
    | .ok cur => .ok (true, { s with rest := cur.rest, line := cur.line, col := cur.col })
  else .ok (false, s)

/-- The `while self.peek() != "\0"` loop of `Lexer.tokenize`
(`final.py:212`), with explicit fuel.  Exhausted fuel returns an error
that is never reached from `tokenize`
(see `tokenizeLoopF_fuel_irrelevant`): every iteration consumes at
least one character.  Branch order follows the source: whitespace,
strings, comments, numbers, identifiers/keywords, separators,
operators, unexpected character. -/
def tokenizeLoopF : Nat → State → List Token → Except LexError (List Token × State)
  | 0, s, _ => .error (.unexpectedChar (peek s 0) s.line s.col)
  | fuel + 1, s, acc =>
    let ch := peek s 0
    if ch == '\x00' then .ok (acc, s)
    else if pyIsSpace ch then tokenizeLoopF fuel (advance s).2 acc
    else if ch == '\'' || ch == '"' then
      match lexString s with
      | .error e => .error e
      | .ok (t, s2) => tokenizeLoopF fuel s2 (acc ++ [t])
    else
      match skipCommentIfPresent s with
      | .error e => .error e
      | .ok (true, s2) => tokenizeLoopF fuel s2 acc
      | .ok (false, s1) =>
        if pyIsDigit ch then
          let (t, s2) := lexNumber s1
          tokenizeLoopF fuel s2 (acc ++ [t])
        else if pyIsAlpha ch || ch == '_' then
          let (t, s2) := lexIdentifierOrKeyword s1
          tokenizeLoopF fuel s2 (acc ++ [t])
        else if SEPARATORS.contains ch then
          let line := s1.line
          let col := s1.col
          let (c, s2) := advance s1
          tokenizeLoopF fuel s2 (acc ++ [⟨"SEP", String.mk [c], line, col⟩])
        else
          match lexOperator s1 with
          | some (t, s2) => tokenizeLoopF fuel s2 (acc ++ [t])
          | none => .error (.unexpectedChar ch s1.line s1.col)

/-- `Lexer.tokenize` (`final.py:209`) run on a fresh `Lexer(source)`:
the scan loop starting from line 1, column 1 with empty tables,
followed by the final `EOF` token at the final cursor position.  The
fuel `src.length + 1` is sufficient (`tokenizeLoopF_fuel_irrelevant`). -/
def tokenize (src : List Char) : Except LexError (List Token × State) :=
  let s0 : State := ⟨src, 1, 1, [], []⟩
  match tokenizeLoopF (src.length + 1) s0 [] with
  | .error e => .error e
  | .ok (toks, s1) => .ok (toks ++ [⟨"EOF", "", s1.line, s1.col⟩], s1)

/-!
## Consumption accounting

`posFold` replays the `stepPos` cursor update over a list of characters;
`Consumes r line col cur` states that cursor `cur` is reached from
position `line:col` by consuming a prefix of `r`, with the position
updated by `stepPos` once per consumed character.  Every lexing loop of
the scanner satisfies it.
-/

/-- Replay the per-character cursor update over a list of characters. -/
def posFold (cs : List Char) (p : Nat × Nat) : Nat × Nat :=
  cs.foldl (fun q ch => stepPos ch q.1 q.2) p

theorem posFold_nil (p : Nat × Nat) : posFold [] p = p := rfl

theorem posFold_cons (c : Char) (l : List Char) (p : Nat × Nat) :
    posFold (c :: l) p = posFold l (stepPos c p.1 p.2) := rfl

theorem posFold_append (a b : List Char) (p : Nat × Nat) :
    posFold (a ++ b) p = posFold b (posFold a p) := by
  simp [posFold, List.foldl_append]

/-- `cur` is obtained from remaining input `r` at position `line:col` by
consuming a prefix, each consumed character updating the position once. -/
def Consumes (r : List Char) (line col : Nat) (cur : Cursor) : Prop :=
  ∃ mid, r = mid ++ cur.rest ∧ (cur.line, cur.col) = posFold mid (line, col)

theorem Consumes.refl (r : List Char) (line col : Nat) :
    Consumes r line col ⟨r, line, col⟩ :=
  ⟨[], by simp, by simp [posFold]⟩

theorem Consumes.trans {r : List Char} {line col : Nat} {cur cur' : Cursor}
    (h1 : Consumes r line col cur)
    (h2 : Consumes cur.rest cur.line cur.col cur') : Consumes r line col cur' := by
  obtain ⟨m1, hr1, hp1⟩ := h1
  obtain ⟨m2, hr2, hp2⟩ := h2
  refine ⟨m1 ++ m2, ?_, ?_⟩
  · rw [hr1, hr2, List.append_assoc]
  · rw [posFold_append, ← hp1, hp2]

theorem Consumes.one (c : Char) (cs : List Char) (line col : Nat) :
    Consumes (c :: cs) line col
      ⟨cs, (stepPos c line col).1, (stepPos c line col).2⟩ :=
  ⟨[c], by simp, by simp [posFold]⟩

/-- Consuming the head character known through `peekL`. -/
theorem Consumes.head {r : List Char} {c : Char} (line col : Nat)
    (h : peekL r 0 = c) (hc : c ≠ '\x00') :
    Consumes r line col
      ⟨r.tail, (stepPos c line col).1, (stepPos c line col).2⟩ := by
  cases r with
  | nil => simp [peekL] at h; exact absurd h.symm hc
  | cons a as =>
    simp [peekL] at h
    subst h
    exact Consumes.one a as line col

theorem Consumes.length_le {r : List Char} {line col : Nat} {cur : Cursor}
    (h : Consumes r line col cur) : cur.rest.length ≤ r.length := by
  obtain ⟨mid, hr, _⟩ := h
  subst hr
  simp

theorem Consumes.mem {r : List Char} {line col : Nat} {cur : Cursor}
    (h : Consumes r line col cur) {x : Char} (hx : x ∈ cur.rest) : x ∈ r := by
  obtain ⟨mid, hr, _⟩ := h
  subst hr
  exact List.mem_append_right _ hx

theorem Consumes.posFold_eq {r : List Char} {line col : Nat} {cur : Cursor}
    (h : Consumes r line col cur) :
    posFold r (line, col) = posFold cur.rest (cur.line, cur.col) := by
  obtain ⟨mid, hr, hp⟩ := h
  subst hr
  rw [posFold_append, ← hp]

theorem peekL_nil_eq (k : Nat) : peekL [] k = '\x00' := by
  simp [peekL]

theorem peekL_cons_zero (c : Char) (cs : List Char) : peekL (c :: cs) 0 = c := rfl

theorem peek_nul_of_nil {s : State} (h : s.rest = []) : peek s 0 = '\x00' := by
  simp [peek, h, peekL]

theorem rest_ne_nil_of_peek {s : State} (h : peek s 0 ≠ '\x00') : s.rest ≠ [] := by
  intro hn
  exact h (peek_nul_of_nil hn)

theorem LINE_COMMENT_toList : LINE_COMMENT.toList = ['/', '/'] := rfl

theorem BLOCK_COMMENT_START_toList : BLOCK_COMMENT_START.toList = ['/', '*'] := rfl

theorem BLOCK_COMMENT_END_toList : BLOCK_COMMENT_END.toList = ['*', '/'] := rfl

/-- `startswith` with a NUL-free pattern succeeds exactly on inputs
extending the pattern. -/
theorem startswithL_decomp (p : List Char) (hp : '\x00' ∉ p) :
    ∀ r, startswithL r p = true → ∃ r2, r = p ++ r2 := by
  induction p with
  | nil => intro r _; exact ⟨r, rfl⟩
  | cons c ps ih =>
    intro r h
    simp only [startswithL, Bool.and_eq_true, beq_iff_eq] at h
    obtain ⟨h1, h2⟩ := h
    simp only [List.mem_cons, not_or] at hp
    cases r with
    | nil =>
      rw [peekL_nil_eq] at h1
      exact absurd h1 hp.1
    | cons a as =>
      simp only [peekL_cons_zero] at h1
      subst h1
      obtain ⟨r2, hr2⟩ := ih hp.2 as (by simpa using h2)
      exact ⟨r2, by simp [hr2]⟩

theorem lexIdentLoop_cons (c : Char) (cs : List Char) (line col : Nat)
    (acc : List Char) :
    lexIdentLoop (c :: cs) line col acc =
      if pyIsAlnum c || c == '_' then
        lexIdentLoop cs (stepPos c line col).1 (stepPos c line col).2 (acc ++ [c])
      else (acc, ⟨c :: cs, line, col⟩) := rfl

theorem lexIdentLoop_consumes (r : List Char) :
    ∀ line col acc, Consumes r line col (lexIdentLoop r line col acc).2 := by
  induction r with
  | nil => intro line col acc; exact Consumes.refl [] line col
  | cons c cs ih =>
    intro line col acc
    rw [lexIdentLoop_cons]
    by_cases h : (pyIsAlnum c || c == '_') = true
    · rw [if_pos h]
      exact (Consumes.one c cs line col).trans (ih _ _ _)
    · rw [if_neg h]
      exact Consumes.refl (c :: cs) line col

theorem lexDigitsLoop_cons (c : Char) (cs : List Char) (line col : Nat)
    (acc : List Char) :
    lexDigitsLoop (c :: cs) line col acc =
      if pyIsDigit c then
        lexDigitsLoop cs (stepPos c line col).1 (stepPos c line col).2 (acc ++ [c])
      else (acc, ⟨c :: cs, line, col⟩) := rfl

theorem lexDigitsLoop_consumes (r : List Char) :
    ∀ line col acc, Consumes r line col (lexDigitsLoop r line col acc).2 := by
  induction r with
  | nil => intro line col acc; exact Consumes.refl [] line col
  | cons c cs ih =>
    intro line col acc
    rw [lexDigitsLoop_cons]
    by_cases h : pyIsDigit c = true
    · rw [if_pos h]
      exact (Consumes.one c cs line col).trans (ih _ _ _)
    · rw [if_neg h]
      exact Consumes.refl (c :: cs) line col

theorem lineCommentLoop_cons (c : Char) (cs : List Char) (line col : Nat) :
    lineCommentLoop (c :: cs) line col =
      if c != '\n' && c != '\x00' then
        lineCommentLoop cs (stepPos c line col).1 (stepPos c line col).2
      else ⟨c :: cs, line, col⟩ := rfl

theorem lineCommentLoop_consumes (r : List Char) :
    ∀ line col, Consumes r line col (lineCommentLoop r line col) := by
  induction r with
  | nil => intro line col; exact Consumes.refl [] line col
  | cons c cs ih =>
    intro line col
    rw [lineCommentLoop_cons]
    by_cases h : (c != '\n' && c != '\x00') = true
    · rw [if_pos h]
      exact (Consumes.one c cs line col).trans (ih _ _)
    · rw [if_neg h]
      exact Consumes.refl (c :: cs) line col

theorem blockCommentLoop_cons (c : Char) (cs : List Char) (line col : Nat) :
    blockCommentLoop (c :: cs) line col =
      if c == '\x00' then .error (.unterminatedBlockComment line col)
      else if startswithL (c :: cs) BLOCK_COMMENT_END.toList then
        .ok ⟨cs.tail,
          (stepPos (peekL cs 0) (stepPos c line col).1 (stepPos c line col).2).1,
          (stepPos (peekL cs 0) (stepPos c line col).1 (stepPos c line col).2).2⟩
      else blockCommentLoop cs (stepPos c line col).1 (stepPos c line col).2 := rfl

theorem blockCommentLoop_ok_consumes (r : List Char) :
    ∀ line col cur, blockCommentLoop r line col = .ok cur →
      Consumes r line col cur := by
  induction r with
  | nil => intro line col cur h; exact absurd h (by simp [blockCommentLoop])
  | cons c cs ih =>
    intro line col cur h
    rw [blockCommentLoop_cons] at h
    by_cases hc : (c == '\x00') = true
    · rw [if_pos hc] at h
      exact absurd h (by simp)
    · rw [if_neg hc] at h
      by_cases hsw : startswithL (c :: cs) BLOCK_COMMENT_END.toList = true
      · rw [if_pos hsw] at h
        rw [BLOCK_COMMENT_END_toList] at hsw
        obtain ⟨r2, hr2⟩ := startswithL_decomp ['*', '/'] (by decide) _ hsw
        simp only [List.cons_append, List.nil_append, List.cons.injEq] at hr2
        obtain ⟨hc2, hcs⟩ := hr2
        subst hc2
        subst hcs
        injection h with h2
        subst h2
        exact ⟨['*', '/'], rfl, rfl⟩
      · rw [if_neg hsw] at h
        exact (Consumes.one c cs line col).trans (ih _ _ _ h)

theorem blockCommentLoop_error (r : List Char) :
    ∀ line col e, blockCommentLoop r line col = .error e → '\x00' ∉ r →
      e = .unterminatedBlockComment (posFold r (line, col)).1
            (posFold r (line, col)).2 := by
  induction r with
  | nil =>
    intro line col e h _
    simp only [blockCommentLoop, Except.error.injEq] at h
    simp [← h, posFold]
  | cons c cs ih =>
    intro line col e h hn
    rw [blockCommentLoop_cons] at h
    by_cases hc : (c == '\x00') = true
    · rw [beq_iff_eq] at hc
      subst hc
      exact absurd (by simp) hn
    · rw [if_neg hc] at h
      by_cases hsw : startswithL (c :: cs) BLOCK_COMMENT_END.toList = true
      · rw [if_pos hsw] at h
        exact absurd h (by simp)
      · rw [if_neg hsw] at h
        rw [posFold_cons]
        exact ih _ _ _ h (fun hm => hn (List.mem_cons_of_mem c hm))

/-- Every error raised by the string-scanning loop is the
unterminated-string error carrying the opening quote's position
`sline:scol`, which the loop threads through unchanged. -/
theorem lexStringLoop_error (quote : Char) (sline scol : Nat) (n : Nat) :
    ∀ r, r.length ≤ n → ∀ line col out e,
      lexStringLoop quote sline scol r line col out = .error e →
      e = .unterminatedString sline scol := by
  induction n with
  | zero =>
    intro r hr line col out e h
    rw [List.length_eq_zero.mp (Nat.le_zero.mp hr)] at h
    simp only [lexStringLoop, Except.error.injEq] at h
    exact h.symm
  | succ n ih =>
    intro r hr line col out e h
    cases r with
    | nil =>
      simp only [lexStringLoop, Except.error.injEq] at h
      exact h.symm
    | cons c cs =>
      replace hr : cs.length ≤ n := by simp at hr; omega
      cases cs with
      | nil =>
        rw [lexStringLoop.eq_3] at h
        by_cases hc : (c == '\x00') = true
        · rw [if_pos hc] at h
          simp only [Except.error.injEq] at h
          exact h.symm
        · rw [if_neg hc] at h
          by_cases hq : (c == quote) = true
          · rw [if_pos hq] at h
            exact absurd h (by simp)
          · rw [if_neg hq] at h
            by_cases hb : (c == '\\') = true
            · rw [if_pos hb] at h
              exact ih [] (Nat.zero_le n) _ _ _ _ h
            · rw [if_neg hb] at h
              exact ih [] (Nat.zero_le n) _ _ _ _ h
      | cons d ds =>
        by_cases hd : (quote == '\'' && peekL (d :: ds) 0 == '\'') = true
        · rw [lexStringLoop.eq_2 quote sline scol line col out c d ds hd] at h
          by_cases hc : (c == '\x00') = true
          · rw [if_pos hc] at h
            simp only [Except.error.injEq] at h
            exact h.symm
          · rw [if_neg hc] at h
            by_cases hq : (c == quote) = true
            · rw [if_pos hq] at h
              exact ih ds (by simp at hr; omega) _ _ _ _ h
            · rw [if_neg hq] at h
              by_cases hb : (c == '\\') = true
              · rw [if_pos hb] at h
                cases hesc : escapes d with
                | some dd =>
                  rw [hesc] at h
                  exact ih ds (by simp at hr; omega) _ _ _ _ h
                | none =>
                  rw [hesc] at h
                  exact ih ds (by simp at hr; omega) _ _ _ _ h
              · rw [if_neg hb] at h
                exact ih (d :: ds) hr _ _ _ _ h
        · rw [lexStringLoop.eq_4 quote sline scol line col out c d ds
            (fun _ _ _ hb => hd hb)] at h
          by_cases hc : (c == '\x00') = true
          · rw [if_pos hc] at h
            simp only [Except.error.injEq] at h
            exact h.symm
          · rw [if_neg hc] at h
            by_cases hq : (c == quote) = true
            · rw [if_pos hq] at h
              exact absurd h (by simp)
            · rw [if_neg hq] at h
              by_cases hb : (c == '\\') = true
              · rw [if_pos hb] at h
                cases hesc : escapes d with
                | some dd =>
                  rw [hesc] at h
                  exact ih ds (by simp at hr; omega) _ _ _ _ h
                | none =>
                  rw [hesc] at h
                  exact ih ds (by simp at hr; omega) _ _ _ _ h
              · rw [if_neg hb] at h
                exact ih (d :: ds) hr _ _ _ _ h

/-- On success the string-scanning loop has consumed a prefix of its
input, the cursor updated once per consumed character. -/
theorem lexStringLoop_ok_consumes (quote : Char) (sline scol : Nat) (n : Nat) :
    ∀ r, r.length ≤ n → ∀ line col out o cur,
      lexStringLoop quote sline scol r line col out = .ok (o, cur) →
      Consumes r line col cur := by
  induction n with
  | zero =>
    intro r hr line col out o cur h
    rw [List.length_eq_zero.mp (Nat.le_zero.mp hr)] at h
    exact absurd h (by simp [lexStringLoop])
  | succ n ih =>
    intro r hr line col out o cur h
    cases r with
    | nil =>
      exact absurd h (by simp [lexStringLoop])
    | cons c cs =>
      replace hr : cs.length ≤ n := by simp at hr; omega
      cases cs with
      | nil =>
        rw [lexStringLoop.eq_3] at h
        by_cases hc : (c == '\x00') = true
        · rw [if_pos hc] at h
          exact absurd h (by simp)
        · rw [if_neg hc] at h
          by_cases hq : (c == quote) = true
          · rw [if_pos hq] at h
            injection h with h2
            injection h2 with h3 h4
            subst h4
            exact Consumes.one c [] line col
          · rw [if_neg hq] at h
            by_cases hb : (c == '\\') = true
            · rw [if_pos hb] at h
              exact absurd h (by simp [lexStringLoop])
            · rw [if_neg hb] at h
              exact absurd h (by simp [lexStringLoop])
      | cons d ds =>
        by_cases hd : (quote == '\'' && peekL (d :: ds) 0 == '\'') = true
        · rw [lexStringLoop.eq_2 quote sline scol line col out c d ds hd] at h
          by_cases hc : (c == '\x00') = true
          · rw [if_pos hc] at h
            exact absurd h (by simp)
          · rw [if_neg hc] at h
            by_cases hq : (c == quote) = true
            · rw [if_pos hq] at h
              have hde : d = '\'' := by
                simp only [Bool.and_eq_true, beq_iff_eq] at hd
                simpa [peekL] using hd.2
              subst hde
              exact (Consumes.one c ('\'' :: ds) line col).trans
                ((Consumes.one '\'' ds _ _).trans
                  (ih ds (by simp at hr; omega) _ _ _ _ _ h))
            · rw [if_neg hq] at h
              by_cases hb : (c == '\\') = true
              · rw [if_pos hb] at h
                cases hesc : escapes d with
                | some dd =>
                  rw [hesc] at h
                  exact (Consumes.one c (d :: ds) line col).trans
                    ((Consumes.one d ds _ _).trans
                      (ih ds (by simp at hr; omega) _ _ _ _ _ h))
                | none =>
                  rw [hesc] at h
                  exact (Consumes.one c (d :: ds) line col).trans
                    ((Consumes.one d ds _ _).trans
                      (ih ds (by simp at hr; omega) _ _ _ _ _ h))
              · rw [if_neg hb] at h
                exact (Consumes.one c (d :: ds) line col).trans (ih (d :: ds) hr _ _ _ _ _ h)
        · rw [lexStringLoop.eq_4 quote sline scol line col out c d ds
            (fun _ _ _ hb => hd hb)] at h
          by_cases hc : (c == '\x00') = true
          · rw [if_pos hc] at h
            exact absurd h (by simp)
          · rw [if_neg hc] at h
            by_cases hq : (c == quote) = true
            · rw [if_pos hq] at h
              injection h with h2
              injection h2 with h3 h4
              subst h4
              exact Consumes.one c (d :: ds) line col
            · rw [if_neg hq] at h
              by_cases hb : (c == '\\') = true
              · rw [if_pos hb] at h
                cases hesc : escapes d with
                | some dd =>
                  rw [hesc] at h
                  exact (Consumes.one c (d :: ds) line col).trans
                    ((Consumes.one d ds _ _).trans
                      (ih ds (by simp at hr; omega) _ _ _ _ _ h))
                | none =>
                  rw [hesc] at h
                  exact (Consumes.one c (d :: ds) line col).trans
                    ((Consumes.one d ds _ _).trans
                      (ih ds (by simp at hr; omega) _ _ _ _ _ h))
              · rw [if_neg hb] at h
                exact (Consumes.one c (d :: ds) line col).trans (ih (d :: ds) hr _ _ _ _ _ h)

/-!
## State-level consumption

`SConsumes s s2` lifts `Consumes` to scanner states: `s2` is reached
from `s` by consuming a prefix of `s.rest`, the cursor updated once per
consumed character (the lexical tables are unconstrained).
-/

/-- State `s2`'s remaining input is a suffix of `s`'s, and its cursor is
obtained from `s`'s by one `stepPos` per consumed character. -/
def SConsumes (s s2 : State) : Prop :=
  Consumes s.rest s.line s.col ⟨s2.rest, s2.line, s2.col⟩

theorem SConsumes.srefl (s : State) : SConsumes s s :=
  Consumes.refl s.rest s.line s.col

theorem SConsumes.strans {a b c : State} (h1 : SConsumes a b)
    (h2 : SConsumes b c) : SConsumes a c :=
  Consumes.trans h1 h2

theorem SConsumes.posFold {a b : State} (h : SConsumes a b) :
    posFold a.rest (a.line, a.col) = posFold b.rest (b.line, b.col) :=
  Consumes.posFold_eq h

theorem SConsumes.not_nul {a b : State} (h : SConsumes a b)
    (hn : '\x00' ∉ a.rest) : '\x00' ∉ b.rest :=
  fun hm => hn (Consumes.mem h hm)

theorem SConsumes.decomp {a b : State} (h : SConsumes a b) :
    ∃ pre, a.rest = pre ++ b.rest := by
  obtain ⟨mid, hm, _⟩ := h
  exact ⟨mid, hm⟩

theorem advance_sconsumes {s : State} (h : peek s 0 ≠ '\x00') :
    SConsumes s (advance s).2 :=
  Consumes.head s.line s.col rfl h

theorem advance_rest (s : State) : (advance s).2.rest = s.rest.tail := rfl

theorem SConsumes_mk {s : State} {cur : Cursor}
    (h : Consumes s.rest s.line s.col cur) (s2 : State)
    (h2 : s2.rest = cur.rest) (h3 : s2.line = cur.line)
    (h4 : s2.col = cur.col) : SConsumes s s2 := by
  unfold SConsumes
  rw [h2, h3, h4]
  exact h

theorem lexIdentifierOrKeyword_spec (s : State) :
    SConsumes s (lexIdentifierOrKeyword s).2 ∧
    ((lexIdentifierOrKeyword s).1.type = "KW" ∨
      (lexIdentifierOrKeyword s).1.type = "IDENT") := by
  rcases hl : lexIdentLoop s.rest s.line s.col [] with ⟨cs, cur⟩
  have hc := lexIdentLoop_consumes s.rest s.line s.col []
  rw [hl] at hc
  by_cases hk : String.mk cs ∈ KEYWORDS
  · refine ⟨SConsumes_mk hc _ ?_ ?_ ?_, Or.inl ?_⟩ <;>
      simp [lexIdentifierOrKeyword, hl, hk]
  · refine ⟨SConsumes_mk hc _ ?_ ?_ ?_, Or.inr ?_⟩ <;>
      simp [lexIdentifierOrKeyword, hl, hk]

theorem lexNumberFrac_consumes (ds : List Char) (cur1 : Cursor) :
    Consumes cur1.rest cur1.line cur1.col (lexNumberFrac ds cur1).2.2 := by
  unfold lexNumberFrac
  by_cases hf : (peekL cur1.rest 0 == '.' && pyIsDigit (peekL cur1.rest 1)) = true
  · rw [if_pos hf]
    rcases h2 : lexDigitsLoop cur1.rest.tail
        (stepPos (peekL cur1.rest 0) cur1.line cur1.col).1
        (stepPos (peekL cur1.rest 0) cur1.line cur1.col).2 [] with ⟨ds2, curb⟩
    have hc2 := lexDigitsLoop_consumes cur1.rest.tail
        (stepPos (peekL cur1.rest 0) cur1.line cur1.col).1
        (stepPos (peekL cur1.rest 0) cur1.line cur1.col).2 []
    rw [h2] at hc2
    simp only [h2]
    have hdot : peekL cur1.rest 0 ≠ '\x00' := by
      simp only [Bool.and_eq_true, beq_iff_eq] at hf
      rw [hf.1]
      decide
    exact (Consumes.head cur1.line cur1.col rfl hdot).trans hc2
  · rw [if_neg hf]
    exact Consumes.refl cur1.rest cur1.line cur1.col

theorem lexNumberExpSign_consumes (cur2 : Cursor) :
    Consumes cur2.rest cur2.line cur2.col (lexNumberExpSign cur2).2 := by
  unfold lexNumberExpSign
  by_cases hs : (peekL cur2.rest 0 == '+' || peekL cur2.rest 0 == '-') = true
  · rw [if_pos hs]
    have hg : peekL cur2.rest 0 ≠ '\x00' := by
      rcases Bool.or_eq_true_iff.mp hs with h | h <;>
        rw [beq_iff_eq] at h <;> rw [h] <;> decide
    exact Consumes.head cur2.line cur2.col rfl hg
  · rw [if_neg hs]
    exact Consumes.refl cur2.rest cur2.line cur2.col

theorem lexNumberExp_consumes (isF : Bool) (cs : List Char) (cur : Cursor) :
    Consumes cur.rest cur.line cur.col (lexNumberExp isF cs cur).2.2 := by
  unfold lexNumberExp
  by_cases he : (peekL cur.rest 0 == 'e' || peekL cur.rest 0 == 'E') = true
  · rw [if_pos he]
    by_cases hn : (pyIsDigit (peekL cur.rest 1) ||
        ((peekL cur.rest 1 == '+' || peekL cur.rest 1 == '-') &&
          pyIsDigit (peekL cur.rest 2))) = true
    · rw [if_pos hn]
      rcases hsgn : lexNumberExpSign ⟨cur.rest.tail,
          (stepPos (peekL cur.rest 0) cur.line cur.col).1,
          (stepPos (peekL cur.rest 0) cur.line cur.col).2⟩ with ⟨sgn, curs⟩
      have hcs := lexNumberExpSign_consumes ⟨cur.rest.tail,
          (stepPos (peekL cur.rest 0) cur.line cur.col).1,
          (stepPos (peekL cur.rest 0) cur.line cur.col).2⟩
      rw [hsgn] at hcs
      rcases hdig : lexDigitsLoop curs.rest curs.line curs.col [] with ⟨ds3, curd⟩
      have hcd := lexDigitsLoop_consumes curs.rest curs.line curs.col []
      rw [hdig] at hcd
      simp only [hsgn, hdig]
      have hee : peekL cur.rest 0 ≠ '\x00' := by
        rcases Bool.or_eq_true_iff.mp he with h | h <;>
          rw [beq_iff_eq] at h <;> rw [h] <;> decide
      exact (Consumes.head cur.line cur.col rfl hee).trans (hcs.trans hcd)
    · rw [if_neg hn]
      exact Consumes.refl cur.rest cur.line cur.col
  · rw [if_neg he]
    exact Consumes.refl cur.rest cur.line cur.col

/-- The head character of a known remaining input. -/
theorem peek_cons {s : State} {c : Char} {cs : List Char} (h : s.rest = c :: cs) :
    peek s 0 = c := by
  unfold peek peekL
  rw [h]
  rfl

/-- `lex_string` can only fail with the unterminated-string error, and
it always carries the position the scanner was at when `lex_string`
started, i.e. the opening quote's position. -/
theorem lexString_error_shape (s : State) (e : LexError)
    (h : lexString s = .error e) : e = .unterminatedString s.line s.col := by
  unfold lexString at h
  rcases hl : lexStringLoop (peek s 0) s.line s.col (advance s).2.rest
      (advance s).2.line (advance s).2.col [] with e2 | ⟨out, cur⟩
  · simp only [hl, Except.error.injEq] at h
    rw [← h]
    exact lexStringLoop_error (peek s 0) s.line s.col
      (advance s).2.rest.length (advance s).2.rest le_rfl _ _ _ _ hl
  · simp only [hl] at h
    exact absurd h (by simp)

theorem lexString_ok_spec (s : State) (t : Token) (s2 : State)
    (hq : peek s 0 ≠ '\x00') (h : lexString s = .ok (t, s2)) :
    SConsumes s s2 ∧ t.type = "STRING" ∧ s2.rest.length < s.rest.length := by
  unfold lexString at h
  rcases hl : lexStringLoop (peek s 0) s.line s.col (advance s).2.rest
      (advance s).2.line (advance s).2.col [] with e2 | ⟨out, cur⟩
  · simp only [hl] at h
    exact absurd h (by simp)
  · simp only [hl] at h
    injection h with h2
    injection h2 with h3 h4
    have hcl := lexStringLoop_ok_consumes (peek s 0) s.line s.col
      (advance s).2.rest.length (advance s).2.rest le_rfl _ _ _ _ _ hl
    have hrest : s2.rest = cur.rest := by rw [← h4]
    have hline : s2.line = cur.line := by rw [← h4]
    have hcol : s2.col = cur.col := by rw [← h4]
    refine ⟨(advance_sconsumes hq).strans
      (SConsumes_mk hcl s2 hrest hline hcol), ?_, ?_⟩
    · rw [← h3]
    · have h5 := Consumes.length_le hcl
      have h6 : (advance s).2.rest.length = s.rest.tail.length := rfl
      have h7 : s.rest ≠ [] := rest_ne_nil_of_peek hq
      have h8 : 0 < s.rest.length := List.length_pos.mpr h7
      rw [hrest]
      rw [h6, List.length_tail] at h5
      omega

theorem skipComment_ok_spec (s : State) (b : Bool) (s2 : State)
    (h : skipCommentIfPresent s = .ok (b, s2)) :
    SConsumes s s2 ∧ (b = false → s2 = s) ∧
    (b = true → s2.rest.length < s.rest.length) := by
  unfold skipCommentIfPresent at h
  by_cases h1 : startswith s LINE_COMMENT.toList = true
  · rw [if_pos h1] at h
    injection h with h2
    injection h2 with hb hs2
    have hc := lineCommentLoop_consumes s.rest s.line s.col
    obtain ⟨r2, hr2⟩ := startswithL_decomp LINE_COMMENT.toList (by decide) s.rest h1
    rw [LINE_COMMENT_toList] at hr2
    have hr2n : s.rest = '/' :: '/' :: r2 := by simpa using hr2
    refine ⟨SConsumes_mk hc s2 (by rw [← hs2]) (by rw [← hs2]) (by rw [← hs2]), ?_, ?_⟩
    · intro hb2
      rw [← hb] at hb2
      exact absurd hb2 (by decide)
    · intro _
      have hstep : lineCommentLoop s.rest s.line s.col =
          lineCommentLoop ('/' :: r2) (stepPos '/' s.line s.col).1
            (stepPos '/' s.line s.col).2 := by
        rw [hr2n, lineCommentLoop_cons, if_pos (by decide)]
      have hl2 := Consumes.length_le (lineCommentLoop_consumes ('/' :: r2)
        (stepPos '/' s.line s.col).1 (stepPos '/' s.line s.col).2)
      have hs2r : s2.rest = (lineCommentLoop s.rest s.line s.col).rest := by
        rw [← hs2]
      rw [hs2r, hstep, hr2n]
      simp only [List.length_cons] at hl2 ⊢
      omega
  · rw [if_neg h1] at h
    by_cases h2 : startswith s BLOCK_COMMENT_START.toList = true
    · rw [if_pos h2] at h
      obtain ⟨r2, hr2⟩ := startswithL_decomp BLOCK_COMMENT_START.toList (by decide) s.rest h2
      rw [BLOCK_COMMENT_START_toList] at hr2
      have hr2n : s.rest = '/' :: '*' :: r2 := by simpa using hr2
      have hp1 : peek s 0 ≠ '\x00' := by
        rw [peek_cons hr2n]
        decide
      have htl : (advance s).2.rest = '*' :: r2 := by
        rw [advance_rest, hr2n]
        rfl
      have hp2 : peek (advance s).2 0 ≠ '\x00' := by
        rw [peek_cons htl]
        decide
      rcases hbl : blockCommentLoop (advance (advance s).2).2.rest
          (advance (advance s).2).2.line (advance (advance s).2).2.col with e2 | cur
      · simp only [hbl] at h
        exact absurd h (by simp)
      · simp only [hbl] at h
        injection h with h3
        injection h3 with hb hs2
        have hc := blockCommentLoop_ok_consumes _ _ _ _ hbl
        have hcs : SConsumes s s2 :=
          ((advance_sconsumes hp1).strans (advance_sconsumes hp2)).strans
            (SConsumes_mk hc s2 (by rw [← hs2]) (by rw [← hs2]) (by rw [← hs2]))
        refine ⟨hcs, ?_, ?_⟩
        · intro hb2
          rw [← hb] at hb2
          exact absurd hb2 (by decide)
        · intro _
          have hl2 := Consumes.length_le hc
          have hrr : (advance (advance s).2).2.rest = r2 := by
            rw [advance_rest, htl]
            rfl
          rw [hrr] at hl2
          have hs2r : s2.rest = cur.rest := by rw [← hs2]
          rw [hs2r, hr2n]
          simp only [List.length_cons]
          omega
    · rw [if_neg h2] at h
      injection h with h3
      injection h3 with hb hs2
      subst hs2
      exact ⟨SConsumes.srefl s, fun _ => rfl, fun hb2 => absurd (hb ▸ hb2) (by decide)⟩

/-- `skip_comment_if_present` can only fail inside an unterminated block
comment; on NUL-free input the reported position is the one reached
after consuming the whole remaining input. -/
theorem skipComment_error (s : State) (e : LexError)
    (h : skipCommentIfPresent s = .error e) (hn : '\x00' ∉ s.rest) :
    e = .unterminatedBlockComment (posFold s.rest (s.line, s.col)).1
          (posFold s.rest (s.line, s.col)).2 := by
  unfold skipCommentIfPresent at h
  by_cases h1 : startswith s LINE_COMMENT.toList = true
  · rw [if_pos h1] at h
    exact absurd h (by simp)
  · rw [if_neg h1] at h
    by_cases h2 : startswith s BLOCK_COMMENT_START.toList = true
    · rw [if_pos h2] at h
      obtain ⟨r2, hr2⟩ := startswithL_decomp BLOCK_COMMENT_START.toList (by decide) s.rest h2
      rw [BLOCK_COMMENT_START_toList] at hr2
      have hr2n : s.rest = '/' :: '*' :: r2 := by simpa using hr2
      have hp1 : peek s 0 ≠ '\x00' := by
        rw [peek_cons hr2n]
        decide
      have htl : (advance s).2.rest = '*' :: r2 := by
        rw [advance_rest, hr2n]
        rfl
      have hp2 : peek (advance s).2 0 ≠ '\x00' := by
        rw [peek_cons htl]
        decide
      rcases hbl : blockCommentLoop (advance (advance s).2).2.rest
          (advance (advance s).2).2.line (advance (advance s).2).2.col with e2 | cur
      · simp only [hbl, Except.error.injEq] at h
        rw [← h]
        have hadv : SConsumes s (advance (advance s).2).2 :=
          (advance_sconsumes hp1).strans (advance_sconsumes hp2)
        have hpos := hadv.posFold
        have hnn := hadv.not_nul hn
        rw [hpos]
        exact blockCommentLoop_error _ _ _ _ hbl hnn
      · simp only [hbl] at h
        exact absurd h (by simp)
    · rw [if_neg h2] at h
      exact absurd h (by simp)

theorem advanceBy_succ (r : List Char) (line col n : Nat) :
    advanceBy r line col (n + 1) =
      advanceBy r.tail (stepPos (peekL r 0) line col).1
        (stepPos (peekL r 0) line col).2 n := rfl

theorem advanceBy_append (p : List Char) :
    ∀ r2 line col, advanceBy (p ++ r2) line col p.length =
      ⟨r2, (posFold p (line, col)).1, (posFold p (line, col)).2⟩ := by
  induction p with
  | nil => intro r2 line col; rfl
  | cons c ps ih =>
    intro r2 line col
    rw [List.cons_append, List.length_cons, advanceBy_succ]
    have ht : (c :: (ps ++ r2)).tail = ps ++ r2 := rfl
    have hp : peekL (c :: (ps ++ r2)) 0 = c := rfl
    rw [ht, hp, ih, posFold_cons]

theorem lexOperatorGo_some (s : State) (line col : Nat) :
    ∀ cands : List String,
      (∀ op ∈ cands, '\x00' ∉ op.toList ∧ op.toList ≠ []) →
      ∀ t s2, lexOperatorGo s line col cands = some (t, s2) →
        SConsumes s s2 ∧ t.type = "OP" ∧ s2.rest.length < s.rest.length := by
  intro cands
  induction cands with
  | nil => intro _ t s2 h; exact absurd h (by simp [lexOperatorGo])
  | cons op rest ih =>
    intro hc t s2 h
    rw [lexOperatorGo] at h
    by_cases hsw : startswith s op.toList = true
    · rw [if_pos hsw] at h
      obtain ⟨r2, hr2⟩ := startswithL_decomp op.toList (hc op (by simp)).1 s.rest hsw
      have hadv : advanceBy s.rest s.line s.col op.length =
          ⟨r2, (posFold op.toList (s.line, s.col)).1,
            (posFold op.toList (s.line, s.col)).2⟩ := by
        rw [hr2]
        exact advanceBy_append op.toList r2 s.line s.col
      injection h with h2
      injection h2 with h3 h4
      have hcons : Consumes s.rest s.line s.col
          ⟨r2, (posFold op.toList (s.line, s.col)).1,
            (posFold op.toList (s.line, s.col)).2⟩ := ⟨op.toList, hr2, rfl⟩
      refine ⟨SConsumes_mk hcons s2 ?_ ?_ ?_, by rw [← h3], ?_⟩
      · rw [← h4]
        show (advanceBy s.rest s.line s.col op.length).rest = r2
        rw [hadv]
      · rw [← h4]
        show (advanceBy s.rest s.line s.col op.length).line = _
        rw [hadv]
      · rw [← h4]
        show (advanceBy s.rest s.line s.col op.length).col = _
        rw [hadv]
      · have hne := (hc op (by simp)).2
        have : s2.rest = r2 := by
          rw [← h4]
          show (advanceBy s.rest s.line s.col op.length).rest = r2
          rw [hadv]
        rw [this, hr2, List.length_append]
        cases hop : op.toList with
        | nil => exact absurd hop hne
        | cons a as => simp [hop]
    · rw [if_neg hsw] at h
      exact ih (fun o ho => hc o (List.mem_cons_of_mem op ho)) t s2 h

/-- Every operator candidate is NUL-free and nonempty. -/
theorem OPERATORS_wf : ∀ op ∈ OPERATORS, '\x00' ∉ op.toList ∧ op.toList ≠ [] := by
  decide

theorem lexOperator_some (s : State) (t : Token) (s2 : State)
    (h : lexOperator s = some (t, s2)) :
    SConsumes s s2 ∧ t.type = "OP" ∧ s2.rest.length < s.rest.length :=
  lexOperatorGo_some s s.line s.col OPERATORS OPERATORS_wf t s2 h

theorem lexNumber_spec (s : State) :
    SConsumes s (lexNumber s).2 ∧
    ((lexNumber s).1.type = "FLOAT" ∨ (lexNumber s).1.type = "INT") := by
  unfold lexNumber
  rcases h1 : lexDigitsLoop s.rest s.line s.col [] with ⟨ds, cur1⟩
  have hc1 := lexDigitsLoop_consumes s.rest s.line s.col []
  rw [h1] at hc1
  rcases h2 : lexNumberFrac ds cur1 with ⟨isF2, cs2, cur2⟩
  have hc2 := lexNumberFrac_consumes ds cur1
  rw [h2] at hc2
  rcases h3 : lexNumberExp isF2 cs2 cur2 with ⟨isF3, cs3, cur3⟩
  have hc3 := lexNumberExp_consumes isF2 cs2 cur2
  rw [h3] at hc3
  simp only [h1, h2, h3]
  refine ⟨hc1.trans (hc2.trans hc3), ?_⟩
  by_cases hF : isF3 = true
  · simp [hF]
  · simp [hF]

/-!
## The tokenize loop
-/

/-- A successful run of the tokenize loop stops with the NUL sentinel
under the cursor (end of input or a literal NUL), has consumed a prefix
of the remaining input with one cursor update per character, and every
token it appended has a type other than `"EOF"`. -/
theorem tokenizeLoopF_ok (fuel : Nat) :
    ∀ s acc toks s2, tokenizeLoopF fuel s acc = .ok (toks, s2) →
      peek s2 0 = '\x00' ∧ SConsumes s s2 ∧
      ∀ t ∈ toks, t ∈ acc ∨ t.type ≠ "EOF" := by
  induction fuel with
  | zero =>
    intro s acc toks s2 h
    exact absurd h (by simp [tokenizeLoopF])
  | succ fuel ih =>
    intro s acc toks s2 h
    simp only [tokenizeLoopF] at h
    by_cases h0 : (peek s 0 == '\x00') = true
    · rw [if_pos h0] at h
      injection h with h2
      injection h2 with ha hb
      subst ha
      subst hb
      exact ⟨beq_iff_eq.mp h0, SConsumes.srefl s, fun t ht => Or.inl ht⟩
    · rw [if_neg h0] at h
      have h0' : peek s 0 ≠ '\x00' := by simpa using h0
      by_cases hws : pyIsSpace (peek s 0) = true
      · rw [if_pos hws] at h
        obtain ⟨hp, hc, htk⟩ := ih _ _ _ _ h
        exact ⟨hp, (advance_sconsumes h0').strans hc, htk⟩
      · rw [if_neg hws] at h
        by_cases hq : (peek s 0 == '\'' || peek s 0 == '"') = true
        · rw [if_pos hq] at h
          rcases hstr : lexString s with e | ⟨t, s3⟩
          · simp only [hstr] at h
            exact absurd h (by simp)
          · simp only [hstr] at h
            obtain ⟨hp, hc, htk⟩ := ih _ _ _ _ h
            obtain ⟨hsc, hty, _⟩ := lexString_ok_spec s t s3 h0' hstr
            refine ⟨hp, hsc.strans hc, ?_⟩
            intro t2 ht2
            rcases htk t2 ht2 with hin | hne
            · rcases List.mem_append.mp hin with hin2 | hin2
              · exact Or.inl hin2
              · right
                rw [List.mem_singleton.mp hin2, hty]
                decide
            · exact Or.inr hne
        · rw [if_neg hq] at h
          rcases hcmt : skipCommentIfPresent s with e | ⟨b, s3⟩
          · simp only [hcmt] at h
            exact absurd h (by simp)
          · simp only [hcmt] at h
            cases b with
            | true =>
              obtain ⟨hp, hc, htk⟩ := ih _ _ _ _ h
              obtain ⟨hsc2, _, _⟩ := skipComment_ok_spec s true s3 hcmt
              exact ⟨hp, hsc2.strans hc, htk⟩
            | false =>
              obtain ⟨_, hfs, _⟩ := skipComment_ok_spec s false s3 hcmt
              rw [hfs rfl] at h
              dsimp only at h
              by_cases hd : pyIsDigit (peek s 0) = true
              · rw [if_pos hd] at h
                rcases hnum : lexNumber s with ⟨t, s4⟩
                simp only [hnum] at h
                obtain ⟨hp, hc, htk⟩ := ih _ _ _ _ h
                obtain ⟨hsc2, hty⟩ := lexNumber_spec s
                rw [hnum] at hsc2 hty
                refine ⟨hp, hsc2.strans hc, ?_⟩
                intro t2 ht2
                rcases htk t2 ht2 with hin | hne
                · rcases List.mem_append.mp hin with hin2 | hin2
                  · exact Or.inl hin2
                  · right
                    rw [List.mem_singleton.mp hin2]
                    rcases hty with hty | hty <;> rw [hty] <;> decide
                · exact Or.inr hne
              · rw [if_neg hd] at h
                by_cases hi : (pyIsAlpha (peek s 0) || peek s 0 == '_') = true
                · rw [if_pos hi] at h
                  rcases hid : lexIdentifierOrKeyword s with ⟨t, s4⟩
                  simp only [hid] at h
                  obtain ⟨hp, hc, htk⟩ := ih _ _ _ _ h
                  obtain ⟨hsc2, hty⟩ := lexIdentifierOrKeyword_spec s
                  rw [hid] at hsc2 hty
                  refine ⟨hp, hsc2.strans hc, ?_⟩
                  intro t2 ht2
                  rcases htk t2 ht2 with hin | hne
                  · rcases List.mem_append.mp hin with hin2 | hin2
                    · exact Or.inl hin2
                    · right
                      rw [List.mem_singleton.mp hin2]
                      rcases hty with hty | hty <;> rw [hty] <;> decide
                  · exact Or.inr hne
                · rw [if_neg hi] at h
                  by_cases hsep : SEPARATORS.contains (peek s 0) = true
                  · rw [if_pos hsep] at h
                    rcases hadv : advance s with ⟨c, s4⟩
                    simp only [hadv] at h
                    obtain ⟨hp, hc, htk⟩ := ih _ _ _ _ h
                    have hsc2 : SConsumes s s4 := by
                      have := advance_sconsumes h0'
                      rw [hadv] at this
                      exact this
                    refine ⟨hp, hsc2.strans hc, ?_⟩
                    intro t2 ht2
                    rcases htk t2 ht2 with hin | hne
                    · rcases List.mem_append.mp hin with hin2 | hin2
                      · exact Or.inl hin2
                      · right
                        rw [List.mem_singleton.mp hin2]
                        simp
                    · exact Or.inr hne
                  · rw [if_neg hsep] at h
                    rcases hop : lexOperator s with _ | ⟨t, s4⟩
                    · simp only [hop] at h
                      exact absurd h (by simp)
                    · simp only [hop] at h
                      obtain ⟨hp, hc, htk⟩ := ih _ _ _ _ h
                      obtain ⟨hsc2, hty, _⟩ := lexOperator_some s t s4 hop
                      refine ⟨hp, hsc2.strans hc, ?_⟩
                      intro t2 ht2
                      rcases htk t2 ht2 with hin | hne
                      · rcases List.mem_append.mp hin with hin2 | hin2
                        · exact Or.inl hin2
                        · right
                          rw [List.mem_singleton.mp hin2, hty]
                          decide
                      · exact Or.inr hne

/-- On NUL-free input, an unterminated-block-comment failure of the
tokenize loop reports the position obtained by advancing the cursor
over the entire remaining input, i.e. the position of end-of-input. -/
theorem tokenizeLoopF_ubc (fuel : Nat) :
    ∀ s acc l c, '\x00' ∉ s.rest →
      tokenizeLoopF fuel s acc = .error (.unterminatedBlockComment l c) →
      (l, c) = posFold s.rest (s.line, s.col) := by
  induction fuel with
  | zero =>
    intro s acc l c _ h
    simp [tokenizeLoopF] at h
  | succ fuel ih =>
    intro s acc l c hn h
    simp only [tokenizeLoopF] at h
    by_cases h0 : (peek s 0 == '\x00') = true
    · rw [if_pos h0] at h
      exact absurd h (by simp)
    · rw [if_neg h0] at h
      have h0' : peek s 0 ≠ '\x00' := by simpa using h0
      by_cases hws : pyIsSpace (peek s 0) = true
      · rw [if_pos hws] at h
        have hadv := advance_sconsumes h0'
        have hrec := ih _ _ _ _ (hadv.not_nul hn) h
        rw [hadv.posFold]
        exact hrec
      · rw [if_neg hws] at h
        by_cases hq : (peek s 0 == '\'' || peek s 0 == '"') = true
        · rw [if_pos hq] at h
          rcases hstr : lexString s with e | ⟨t, s3⟩
          · simp only [hstr, Except.error.injEq] at h
            have hsh := lexString_error_shape s e hstr
            rw [hsh] at h
            exact absurd h (by simp)
          · simp only [hstr] at h
            obtain ⟨hsc, _, _⟩ := lexString_ok_spec s t s3 h0' hstr
            have hrec := ih _ _ _ _ (hsc.not_nul hn) h
            rw [hsc.posFold]
            exact hrec
        · rw [if_neg hq] at h
          rcases hcmt : skipCommentIfPresent s with e | ⟨b, s3⟩
          · simp only [hcmt, Except.error.injEq] at h
            have hsh := skipComment_error s e hcmt hn
            rw [h] at hsh
            injection hsh with h1 h2
            rw [h1, h2]
          · simp only [hcmt] at h
            cases b with
            | true =>
              obtain ⟨hsc2, _, _⟩ := skipComment_ok_spec s true s3 hcmt
              have hrec := ih _ _ _ _ (hsc2.not_nul hn) h
              rw [hsc2.posFold]
              exact hrec
            | false =>
              obtain ⟨_, hfs, _⟩ := skipComment_ok_spec s false s3 hcmt
              rw [hfs rfl] at h
              dsimp only at h
              by_cases hd : pyIsDigit (peek s 0) = true
              · rw [if_pos hd] at h
                obtain ⟨hsc2, _⟩ := lexNumber_spec s
                have hrec := ih _ _ _ _ (hsc2.not_nul hn) h
                rw [hsc2.posFold]
                exact hrec
              · rw [if_neg hd] at h
                by_cases hi : (pyIsAlpha (peek s 0) || peek s 0 == '_') = true
                · rw [if_pos hi] at h
                  obtain ⟨hsc2, _⟩ := lexIdentifierOrKeyword_spec s
                  have hrec := ih _ _ _ _ (hsc2.not_nul hn) h
                  rw [hsc2.posFold]
                  exact hrec
                · rw [if_neg hi] at h
                  by_cases hsep : SEPARATORS.contains (peek s 0) = true
                  · rw [if_pos hsep] at h
                    have hadv := advance_sconsumes h0'
                    have hrec := ih _ _ _ _ (hadv.not_nul hn) h
                    rw [hadv.posFold]
                    exact hrec
                  · rw [if_neg hsep] at h
                    rcases hop : lexOperator s with _ | ⟨t, s4⟩
                    · simp only [hop] at h
                      exact absurd h (by simp)
                    · simp only [hop] at h
                      obtain ⟨hsc2, _, _⟩ := lexOperator_some s t s4 hop
                      have hrec := ih _ _ _ _ (hsc2.not_nul hn) h
                      rw [hsc2.posFold]
                      exact hrec

/-!
## Fuel adequacy

Every iteration of the tokenize loop consumes at least one character,
so running it with any fuel exceeding the length of the remaining input
gives the same result: the fuel in `tokenize` is a termination device
only.
-/

theorem advance_strict {s : State} (h : peek s 0 ≠ '\x00') :
    (advance s).2.rest.length < s.rest.length := by
  have h7 := rest_ne_nil_of_peek h
  have h8 : 0 < s.rest.length := List.length_pos.mpr h7
  rw [advance_rest, List.length_tail]
  omega

theorem lexIdentLoop_head_strict (c : Char) (cs : List Char) (line col : Nat)
    (acc : List Char) (hg : (pyIsAlnum c || c == '_') = true) :
    (lexIdentLoop (c :: cs) line col acc).2.rest.length ≤ cs.length := by
  rw [lexIdentLoop_cons, if_pos hg]
  exact Consumes.length_le (lexIdentLoop_consumes cs _ _ _)

theorem lexIdentifierOrKeyword_rest (s : State) :
    (lexIdentifierOrKeyword s).2.rest =
      (lexIdentLoop s.rest s.line s.col []).2.rest := by
  rcases hl : lexIdentLoop s.rest s.line s.col [] with ⟨cs, cur⟩
  by_cases hk : String.mk cs ∈ KEYWORDS <;> simp [lexIdentifierOrKeyword, hl, hk]

theorem lexIdentifierOrKeyword_strict (s : State)
    (hg : (pyIsAlpha (peek s 0) || peek s 0 == '_') = true) :
    (lexIdentifierOrKeyword s).2.rest.length < s.rest.length := by
  cases hr : s.rest with
  | nil =>
    rw [peek_nul_of_nil hr] at hg
    exact absurd hg (by decide)
  | cons c cs =>
    rw [peek_cons hr] at hg
    have hg2 : (pyIsAlnum c || c == '_') = true := by
      rcases Bool.or_eq_true_iff.mp hg with h | h
      · exact Bool.or_eq_true_iff.mpr (Or.inl (by simp [pyIsAlnum, h]))
      · exact Bool.or_eq_true_iff.mpr (Or.inr h)
    rw [lexIdentifierOrKeyword_rest, hr]
    have hle := lexIdentLoop_head_strict c cs s.line s.col [] hg2
    simp only [List.length_cons]
    omega

theorem lexNumber_rest_le (s : State) :
    (lexNumber s).2.rest.length ≤
      (lexDigitsLoop s.rest s.line s.col []).2.rest.length := by
  unfold lexNumber
  rcases h1 : lexDigitsLoop s.rest s.line s.col [] with ⟨ds, cur1⟩
  rcases h2 : lexNumberFrac ds cur1 with ⟨isF2, cs2, cur2⟩
  rcases h3 : lexNumberExp isF2 cs2 cur2 with ⟨isF3, cs3, cur3⟩
  have hc2 := Consumes.length_le (lexNumberFrac_consumes ds cur1)
  rw [h2] at hc2
  have hc3 := Consumes.length_le (lexNumberExp_consumes isF2 cs2 cur2)
  rw [h3] at hc3
  simp only [h1, h2, h3]
  exact le_trans hc3 hc2

theorem lexNumber_strict (s : State) (hd : pyIsDigit (peek s 0) = true) :
    (lexNumber s).2.rest.length < s.rest.length := by
  cases hr : s.rest with
  | nil =>
    rw [peek_nul_of_nil hr] at hd
    exact absurd hd (by decide)
  | cons c cs =>
    rw [peek_cons hr] at hd
    have hstep : lexDigitsLoop s.rest s.line s.col [] =
        lexDigitsLoop cs (stepPos c s.line s.col).1 (stepPos c s.line s.col).2
          ([] ++ [c]) := by
      rw [hr, lexDigitsLoop_cons, if_pos hd]
    have hle := Consumes.length_le (lexDigitsLoop_consumes cs
      (stepPos c s.line s.col).1 (stepPos c s.line s.col).2 ([] ++ [c]))
    have hmain := lexNumber_rest_le s
    rw [hstep] at hmain
    simp only [List.length_cons]
    omega

theorem tokenizeLoopF_fuel_irrelevant (f : Nat) :
    ∀ g s acc, s.rest.length < f → s.rest.length < g →
      tokenizeLoopF f s acc = tokenizeLoopF g s acc := by
  induction f with
  | zero => intro g s acc hf _; omega
  | succ f ihf =>
    intro g s acc hf hg
    cases g with
    | zero => omega
    | succ g =>
      simp only [tokenizeLoopF]
      by_cases h0 : (peek s 0 == '\x00') = true
      · simp only [if_pos h0]
      · simp only [if_neg h0]
        have h0' : peek s 0 ≠ '\x00' := by simpa using h0
        by_cases hws : pyIsSpace (peek s 0) = true
        · simp only [if_pos hws]
          have hs := advance_strict h0'
          exact ihf g _ _ (by omega) (by omega)
        · simp only [if_neg hws]
          by_cases hq : (peek s 0 == '\'' || peek s 0 == '"') = true
          · simp only [if_pos hq]
            rcases hstr : lexString s with e | ⟨t, s3⟩
            · simp only [hstr]
            · simp only [hstr]
              obtain ⟨_, _, hs⟩ := lexString_ok_spec s t s3 h0' hstr
              exact ihf g _ _ (by omega) (by omega)
          · simp only [if_neg hq]
            rcases hcmt : skipCommentIfPresent s with e | ⟨b, s3⟩
            · simp only [hcmt]
            · cases b with
              | true =>
                obtain ⟨_, _, hs⟩ := skipComment_ok_spec s true s3 hcmt
                have hs2 := hs rfl
                exact ihf g _ _ (by omega) (by omega)
              | false =>
                obtain ⟨_, hfs, _⟩ := skipComment_ok_spec s false s3 hcmt
                rw [hfs rfl]
                dsimp only
                by_cases hd : pyIsDigit (peek s 0) = true
                · simp only [if_pos hd]
                  have hs := lexNumber_strict s hd
                  exact ihf g _ _ (by omega) (by omega)
                · simp only [if_neg hd]
                  by_cases hi : (pyIsAlpha (peek s 0) || peek s 0 == '_') = true
                  · simp only [if_pos hi]
                    have hs := lexIdentifierOrKeyword_strict s hi
                    exact ihf g _ _ (by omega) (by omega)
                  · simp only [if_neg hi]
                    by_cases hsep : SEPARATORS.contains (peek s 0) = true
                    · simp only [if_pos hsep]
                      have hs := advance_strict h0'
                      exact ihf g _ _ (by omega) (by omega)
                    · simp only [if_neg hsep]
                      rcases hop : lexOperator s with _ | ⟨t, s4⟩
                      · simp only [hop]
                      · simp only [hop]
                        obtain ⟨_, _, hs⟩ := lexOperator_some s t s4 hop
                        exact ihf g _ _ (by omega) (by omega)

/-!
## A literal NUL behaves like end-of-input

`peek` returns the NUL sentinel both past the end of the input and for
a literal NUL character in the source, so a scan that lexes a NUL-free
prefix successfully cannot distinguish "the input ends after the
prefix" from "a literal NUL (followed by anything) comes after the
prefix": every `peek` the run performs returns the same character on
both inputs.  The lemmas of this section push that simulation through
every lexing function: running on `rest ++ NUL :: ext` gives the same
tokens and the same cursor as running on `rest`, with `NUL :: ext`
still unconsumed.
-/

/-- Append a literal NUL and arbitrary further input after the
remaining input of a cursor. -/
def nulExtendC (ext : List Char) (cur : Cursor) : Cursor :=
  { cur with rest := cur.rest ++ '\x00' :: ext }

/-- Append a literal NUL and arbitrary further input after the
remaining input of a scanner state. -/
def nulExtend (ext : List Char) (s : State) : State :=
  { s with rest := s.rest ++ '\x00' :: ext }

/-- `peek` at any offset up to the end of the original remaining input
is unchanged by appending `NUL :: ext`: within the input both read the
same character, and at offset `r.length` the original `peek` returns
the NUL sentinel while the extended one reads the literal NUL. -/
theorem peekL_extend (ext : List Char) :
    ∀ r k, k ≤ r.length → peekL (r ++ '\x00' :: ext) k = peekL r k := by
  intro r
  induction r with
  | nil =>
    intro k hk
    have hk0 : k = 0 := Nat.le_zero.mp hk
    subst hk0
    rfl
  | cons c cs ih =>
    intro k hk
    cases k with
    | zero => rfl
    | succ k =>
      have hk2 : k ≤ cs.length := by simpa using hk
      have h1 : peekL ((c :: cs) ++ '\x00' :: ext) (k + 1) =
          peekL (cs ++ '\x00' :: ext) k := rfl
      have h2 : peekL (c :: cs) (k + 1) = peekL cs k := rfl
      rw [h1, h2, ih k hk2]

theorem peek_nulExtend (ext : List Char) (s : State) :
    peek (nulExtend ext s) 0 = peek s 0 :=
  peekL_extend ext s.rest 0 (Nat.zero_le _)

/-- `startswith` with a NUL-free pattern is unchanged by appending
`NUL :: ext`: a candidate reaching past the original input fails at the
NUL on both sides. -/
theorem startswithL_extend (p : List Char) (hp : '\x00' ∉ p) :
    ∀ r ext, startswithL (r ++ '\x00' :: ext) p = startswithL r p := by
  induction p with
  | nil => intro r ext; rfl
  | cons c ps ih =>
    intro r ext
    simp only [List.mem_cons, not_or] at hp
    cases r with
    | nil =>
      have hc : ('\x00' == c) = false := by
        rw [beq_eq_false_iff_ne]
        exact hp.1
      simp only [List.nil_append, startswithL, peekL_cons_zero, peekL_nil_eq, hc,
        Bool.false_and]
    | cons a as =>
      simp only [List.cons_append, startswithL, peekL_cons_zero, List.tail_cons]
      rw [ih hp.2 as ext]

theorem lexIdentLoop_extend (ext : List Char) :
    ∀ r line col acc, lexIdentLoop (r ++ '\x00' :: ext) line col acc =
      ((lexIdentLoop r line col acc).1,
        nulExtendC ext (lexIdentLoop r line col acc).2) := by
  intro r
  induction r with
  | nil =>
    intro line col acc
    rw [List.nil_append, lexIdentLoop_cons, if_neg (by decide)]
    rfl
  | cons c cs ih =>
    intro line col acc
    rw [List.cons_append, lexIdentLoop_cons, lexIdentLoop_cons]
    by_cases hg : (pyIsAlnum c || c == '_') = true
    · rw [if_pos hg, if_pos hg]
      exact ih _ _ _
    · rw [if_neg hg, if_neg hg]
      rfl

theorem lexDigitsLoop_extend (ext : List Char) :
    ∀ r line col acc, lexDigitsLoop (r ++ '\x00' :: ext) line col acc =
      ((lexDigitsLoop r line col acc).1,
        nulExtendC ext (lexDigitsLoop r line col acc).2) := by
  intro r
  induction r with
  | nil =>
    intro line col acc
    rw [List.nil_append, lexDigitsLoop_cons, if_neg (by decide)]
    rfl
  | cons c cs ih =>
    intro line col acc
    rw [List.cons_append, lexDigitsLoop_cons, lexDigitsLoop_cons]
    by_cases hg : pyIsDigit c = true
    · rw [if_pos hg, if_pos hg]
      exact ih _ _ _
    · rw [if_neg hg, if_neg hg]
      rfl

theorem lineCommentLoop_extend (ext : List Char) :
    ∀ r line col, lineCommentLoop (r ++ '\x00' :: ext) line col =
      nulExtendC ext (lineCommentLoop r line col) := by
  intro r
  induction r with
  | nil =>
    intro line col
    rw [List.nil_append, lineCommentLoop_cons, if_neg (by decide)]
    rfl
  | cons c cs ih =>
    intro line col
    rw [List.cons_append, lineCommentLoop_cons, lineCommentLoop_cons]
    by_cases hg : (c != '\n' && c != '\x00') = true
    · rw [if_pos hg, if_pos hg]
      exact ih _ _
    · rw [if_neg hg, if_neg hg]
      rfl

theorem blockCommentLoop_extend (ext : List Char) :
    ∀ r line col cur, blockCommentLoop r line col = .ok cur →
      blockCommentLoop (r ++ '\x00' :: ext) line col = .ok (nulExtendC ext cur) := by
  intro r
  induction r with
  | nil =>
    intro line col cur h
    exact absurd h (by simp [blockCommentLoop])
  | cons c cs ih =>
    intro line col cur h
    rw [blockCommentLoop_cons] at h
    rw [List.cons_append, blockCommentLoop_cons]
    by_cases hc : (c == '\x00') = true
    · rw [if_pos hc] at h
      exact absurd h (by simp)
    · rw [if_neg hc] at h
      rw [if_neg hc]
      have hsw2 : startswithL (c :: (cs ++ '\x00' :: ext)) BLOCK_COMMENT_END.toList =
          startswithL (c :: cs) BLOCK_COMMENT_END.toList := by
        have h3 := startswithL_extend BLOCK_COMMENT_END.toList (by decide) (c :: cs) ext
        simpa using h3
      by_cases hsw : startswithL (c :: cs) BLOCK_COMMENT_END.toList = true
      · rw [if_pos hsw] at h
        rw [hsw2, if_pos hsw]
        rw [BLOCK_COMMENT_END_toList] at hsw
        obtain ⟨r2, hr2⟩ := startswithL_decomp ['*', '/'] (by decide) _ hsw
        simp only [List.cons_append, List.nil_append, List.cons.injEq] at hr2
        obtain ⟨hc2, hcs⟩ := hr2
        subst hc2
        subst hcs
        injection h with h2
        subst h2
        rfl
      · rw [if_neg hsw] at h
        rw [hsw2, if_neg hsw]
        exact ih _ _ _ h

/-- A successful run of the string-scanning loop is unchanged by
appending `NUL :: ext` after its input: same decoded output, same
cursor position, with `NUL :: ext` still unconsumed.  (A run that
would need the characters past the original input fails on the
original input, so it is excluded by the success hypothesis.) -/
theorem lexStringLoop_extend (quote : Char) (sline scol : Nat) (n : Nat) :
    ∀ r, r.length ≤ n → ∀ line col out o cur ext,
      lexStringLoop quote sline scol r line col out = .ok (o, cur) →
      lexStringLoop quote sline scol (r ++ '\x00' :: ext) line col out =
        .ok (o, nulExtendC ext cur) := by
  induction n with
  | zero =>
    intro r hr line col out o cur ext h
    rw [List.length_eq_zero.mp (Nat.le_zero.mp hr)] at h
    exact absurd h (by simp [lexStringLoop])
  | succ n ih =>
    intro r hr line col out o cur ext h
    cases r with
    | nil =>
      exact absurd h (by simp [lexStringLoop])
    | cons c cs =>
      replace hr : cs.length ≤ n := by simp at hr; omega
      cases cs with
      | nil =>
        rw [lexStringLoop.eq_3] at h
        have hnul : (quote == '\'' && peekL ('\x00' :: ext) 0 == '\'') = true → False := by
          intro hb
          simp [peekL] at hb
        rw [List.cons_append, List.nil_append,
          lexStringLoop.eq_4 quote sline scol line col out c '\x00' ext
            (fun _ _ _ hb => hnul hb)]
        by_cases hc : (c == '\x00') = true
        · rw [if_pos hc] at h
          exact absurd h (by simp)
        · rw [if_neg hc] at h
          rw [if_neg hc]
          by_cases hq : (c == quote) = true
          · rw [if_pos hq] at h
            rw [if_pos hq]
            injection h with h2
            injection h2 with h3 h4
            subst h3
            subst h4
            rfl
          · rw [if_neg hq] at h
            rw [if_neg hq]
            by_cases hb : (c == '\\') = true
            · rw [if_pos hb] at h
              exact absurd h (by simp [lexStringLoop])
            · rw [if_neg hb] at h
              exact absurd h (by simp [lexStringLoop])
      | cons d ds =>
        by_cases hd : (quote == '\'' && peekL (d :: ds) 0 == '\'') = true
        · rw [lexStringLoop.eq_2 quote sline scol line col out c d ds hd] at h
          rw [List.cons_append, List.cons_append,
            lexStringLoop.eq_2 quote sline scol line col out c d
              (ds ++ '\x00' :: ext) hd]
          by_cases hc : (c == '\x00') = true
          · rw [if_pos hc] at h
            exact absurd h (by simp)
          · rw [if_neg hc] at h
            rw [if_neg hc]
            by_cases hq : (c == quote) = true
            · rw [if_pos hq] at h
              rw [if_pos hq]
              exact ih ds (by simp at hr; omega) _ _ _ _ _ ext h
            · rw [if_neg hq] at h
              rw [if_neg hq]
              by_cases hb : (c == '\\') = true
              · rw [if_pos hb] at h
                rw [if_pos hb]
                cases hesc : escapes d with
                | some dd =>
                  try rw [hesc] at h
                  try rw [hesc]
                  exact ih ds (by simp at hr; omega) _ _ _ _ _ ext h
                | none =>
                  try rw [hesc] at h
                  try rw [hesc]
                  exact ih ds (by simp at hr; omega) _ _ _ _ _ ext h
              · rw [if_neg hb] at h
                rw [if_neg hb]
                exact ih (d :: ds) hr _ _ _ _ _ ext h
        · rw [lexStringLoop.eq_4 quote sline scol line col out c d ds
            (fun _ _ _ hb => hd hb)] at h
          rw [List.cons_append, List.cons_append,
            lexStringLoop.eq_4 quote sline scol line col out c d
              (ds ++ '\x00' :: ext) (fun _ _ _ hb => hd hb)]
          by_cases hc : (c == '\x00') = true
          · rw [if_pos hc] at h
            exact absurd h (by simp)
          · rw [if_neg hc] at h
            rw [if_neg hc]
            by_cases hq : (c == quote) = true
            · rw [if_pos hq] at h
              rw [if_pos hq]
              injection h with h2
              injection h2 with h3 h4
              subst h3
              subst h4
              rfl
            · rw [if_neg hq] at h
              rw [if_neg hq]
              by_cases hb : (c == '\\') = true
              · rw [if_pos hb] at h
                rw [if_pos hb]
                cases hesc : escapes d with
                | some dd =>
                  try rw [hesc] at h
                  try rw [hesc]
                  exact ih ds (by simp at hr; omega) _ _ _ _ _ ext h
                | none =>
                  try rw [hesc] at h
                  try rw [hesc]
                  exact ih ds (by simp at hr; omega) _ _ _ _ _ ext h
              · rw [if_neg hb] at h
                rw [if_neg hb]
                exact ih (d :: ds) hr _ _ _ _ _ ext h

theorem advance_extend (ext : List Char) (s : State) (h : s.rest ≠ []) :
    advance (nulExtend ext s) = ((advance s).1, nulExtend ext (advance s).2) := by
  cases hr : s.rest with
  | nil => exact absurd hr h
  | cons c cs =>
    have h1 : (nulExtend ext s).rest = c :: (cs ++ '\x00' :: ext) := by
      show s.rest ++ '\x00' :: ext = _
      rw [hr]
      rfl
    simp [advance, nulExtend, peek, peekL, hr, h1]

theorem lexNumberExpSign_extend (ext : List Char) (cur : Cursor) :
    lexNumberExpSign (nulExtendC ext cur) =
      ((lexNumberExpSign cur).1, nulExtendC ext (lexNumberExpSign cur).2) := by
  obtain ⟨r, line, col⟩ := cur
  cases r with
  | nil =>
    simp only [nulExtendC, lexNumberExpSign, List.nil_append, peekL_cons_zero,
      peekL_nil_eq]
    rw [if_neg (by decide), if_neg (by decide)]
    rfl
  | cons a as =>
    simp only [nulExtendC, lexNumberExpSign, List.cons_append, peekL_cons_zero,
      List.tail_cons]
    by_cases hg : (a == '+' || a == '-') = true
    · rw [if_pos hg, if_pos hg]
    · rw [if_neg hg, if_neg hg]
      rfl

theorem lexNumberFrac_extend (ext : List Char) (ds : List Char) (cur : Cursor) :
    lexNumberFrac ds (nulExtendC ext cur) =
      ((lexNumberFrac ds cur).1, (lexNumberFrac ds cur).2.1,
        nulExtendC ext (lexNumberFrac ds cur).2.2) := by
  obtain ⟨r, line, col⟩ := cur
  cases r with
  | nil =>
    simp only [nulExtendC, lexNumberFrac, List.nil_append, peekL_cons_zero,
      peekL_nil_eq]
    rw [if_neg (by simp), if_neg (by decide)]
    rfl
  | cons a as =>
    have hpk1 : peekL (a :: (as ++ '\x00' :: ext)) 1 = peekL (a :: as) 1 := by
      have h1 : peekL (a :: (as ++ '\x00' :: ext)) 1 = peekL (as ++ '\x00' :: ext) 0 := rfl
      have h2 : peekL (a :: as) 1 = peekL as 0 := rfl
      rw [h1, h2, peekL_extend ext as 0 (Nat.zero_le _)]
    simp only [nulExtendC, lexNumberFrac, List.cons_append, peekL_cons_zero,
      List.tail_cons, hpk1]
    by_cases hg : (a == '.' && pyIsDigit (peekL (a :: as) 1)) = true
    · rw [if_pos hg, if_pos hg]
      rw [lexDigitsLoop_extend ext as]
      rfl
    · rw [if_neg hg, if_neg hg]
      rfl

theorem lexNumberExp_extend (ext : List Char) (isF : Bool) (cs : List Char)
    (cur : Cursor) :
    lexNumberExp isF cs (nulExtendC ext cur) =
      ((lexNumberExp isF cs cur).1, (lexNumberExp isF cs cur).2.1,
        nulExtendC ext (lexNumberExp isF cs cur).2.2) := by
  obtain ⟨r, line, col⟩ := cur
  cases r with
  | nil =>
    simp only [nulExtendC, lexNumberExp, List.nil_append, peekL_cons_zero,
      peekL_nil_eq]
    rw [if_neg (by simp), if_neg (by decide)]
    rfl
  | cons a r1 =>
    have hg2 : (pyIsDigit (peekL (a :: (r1 ++ '\x00' :: ext)) 1) ||
        ((peekL (a :: (r1 ++ '\x00' :: ext)) 1 == '+' ||
          peekL (a :: (r1 ++ '\x00' :: ext)) 1 == '-') &&
          pyIsDigit (peekL (a :: (r1 ++ '\x00' :: ext)) 2))) =
        (pyIsDigit (peekL (a :: r1) 1) ||
        ((peekL (a :: r1) 1 == '+' || peekL (a :: r1) 1 == '-') &&
          pyIsDigit (peekL (a :: r1) 2))) := by
      cases r1 with
      | nil => rfl
      | cons b r2 =>
        have h1 : peekL (a :: ((b :: r2) ++ '\x00' :: ext)) 1 =
            peekL (a :: b :: r2) 1 := rfl
        have h2 : peekL (a :: ((b :: r2) ++ '\x00' :: ext)) 2 =
            peekL (r2 ++ '\x00' :: ext) 0 := rfl
        have h3 : peekL (a :: b :: r2) 2 = peekL r2 0 := rfl
        rw [h1, h2, h3, peekL_extend ext r2 0 (Nat.zero_le _)]
    simp only [nulExtendC, lexNumberExp, List.cons_append, peekL_cons_zero,
      List.tail_cons, hg2]
    by_cases he : (a == 'e' || a == 'E') = true
    · rw [if_pos he, if_pos he]
      by_cases hn : (pyIsDigit (peekL (a :: r1) 1) ||
          ((peekL (a :: r1) 1 == '+' || peekL (a :: r1) 1 == '-') &&
            pyIsDigit (peekL (a :: r1) 2))) = true
      · rw [if_pos hn, if_pos hn]
        have hsgn := lexNumberExpSign_extend ext
          ⟨r1, (stepPos a line col).1, (stepPos a line col).2⟩
        have hsgn2 : nulExtendC ext
            ⟨r1, (stepPos a line col).1, (stepPos a line col).2⟩ =
            ⟨r1 ++ '\x00' :: ext, (stepPos a line col).1,
              (stepPos a line col).2⟩ := rfl
        rw [hsgn2] at hsgn
        rw [hsgn]
        rcases hs : lexNumberExpSign
            ⟨r1, (stepPos a line col).1, (stepPos a line col).2⟩ with ⟨sgn, curs⟩
        obtain ⟨rs, ls, cls⟩ := curs
        dsimp only [nulExtendC]
        rw [lexDigitsLoop_extend ext rs ls cls []]
        rfl
      · rw [if_neg hn, if_neg hn]
        rfl
    · rw [if_neg he, if_neg he]
      rfl

theorem nulExtend_rest (ext : List Char) (s : State) :
    (nulExtend ext s).rest = s.rest ++ '\x00' :: ext := rfl

theorem nulExtend_line (ext : List Char) (s : State) :
    (nulExtend ext s).line = s.line := rfl

theorem nulExtend_col (ext : List Char) (s : State) :
    (nulExtend ext s).col = s.col := rfl

theorem lexIdentifierOrKeyword_extend (ext : List Char) (s : State) :
    lexIdentifierOrKeyword (nulExtend ext s) =
      ((lexIdentifierOrKeyword s).1,
        nulExtend ext (lexIdentifierOrKeyword s).2) := by
  rcases hl : lexIdentLoop s.rest s.line s.col [] with ⟨cs, cur⟩
  have hl2 : lexIdentLoop (s.rest ++ '\x00' :: ext) s.line s.col [] =
      (cs, nulExtendC ext cur) := by
    rw [lexIdentLoop_extend ext s.rest s.line s.col [], hl]
  simp only [lexIdentifierOrKeyword, nulExtend_rest, nulExtend_line,
    nulExtend_col, hl, hl2]
  by_cases hk : KEYWORDS.contains (String.mk cs) = true
  · rw [if_pos hk, if_pos hk]
    rfl
  · rw [if_neg hk, if_neg hk]
    rfl

theorem lexNumber_extend (ext : List Char) (s : State) :
    lexNumber (nulExtend ext s) =
      ((lexNumber s).1, nulExtend ext (lexNumber s).2) := by
  rcases h1 : lexDigitsLoop s.rest s.line s.col [] with ⟨ds, cur1⟩
  rcases h2 : lexNumberFrac ds cur1 with ⟨isF2, cs2, cur2⟩
  rcases h3 : lexNumberExp isF2 cs2 cur2 with ⟨isF3, cs3, cur3⟩
  have h1e : lexDigitsLoop (s.rest ++ '\x00' :: ext) s.line s.col [] =
      (ds, nulExtendC ext cur1) := by
    rw [lexDigitsLoop_extend ext s.rest s.line s.col [], h1]
  have h2e : lexNumberFrac ds (nulExtendC ext cur1) =
      (isF2, cs2, nulExtendC ext cur2) := by
    rw [lexNumberFrac_extend ext ds cur1, h2]
  have h3e : lexNumberExp isF2 cs2 (nulExtendC ext cur2) =
      (isF3, cs3, nulExtendC ext cur3) := by
    rw [lexNumberExp_extend ext isF2 cs2 cur2, h3]
  simp only [lexNumber, nulExtend_rest, nulExtend_line, nulExtend_col,
    h1, h2, h3, h1e, h2e, h3e]
  rfl

theorem lexString_extend (ext : List Char) (s : State)
    (hne : peek s 0 ≠ '\x00') (t : Token) (s2 : State)
    (h : lexString s = .ok (t, s2)) :
    lexString (nulExtend ext s) = .ok (t, nulExtend ext s2) := by
  have hadv2 : (advance (nulExtend ext s)).2 = nulExtend ext (advance s).2 := by
    rw [advance_extend ext s (rest_ne_nil_of_peek hne)]
  unfold lexString at h
  rcases hl : lexStringLoop (peek s 0) s.line s.col (advance s).2.rest
      (advance s).2.line (advance s).2.col [] with e2 | ⟨out, cur⟩
  · simp only [hl] at h
    exact absurd h (by simp)
  · simp only [hl] at h
    injection h with h2
    injection h2 with h3 h4
    have hl2 : lexStringLoop (peek s 0) s.line s.col
        ((advance s).2.rest ++ '\x00' :: ext)
        (advance s).2.line (advance s).2.col [] =
        .ok (out, nulExtendC ext cur) :=
      lexStringLoop_extend (peek s 0) s.line s.col (advance s).2.rest.length
        (advance s).2.rest le_rfl _ _ _ _ _ ext hl
    unfold lexString
    rw [peek_nulExtend, hadv2]
    simp only [nulExtend_rest, nulExtend_line, nulExtend_col]
    rw [hl2]
    rw [← h3, ← h4]
    rfl

theorem skipCommentIfPresent_extend (ext : List Char) (s : State) (b : Bool)
    (s2 : State) (h : skipCommentIfPresent s = .ok (b, s2)) :
    skipCommentIfPresent (nulExtend ext s) = .ok (b, nulExtend ext s2) := by
  have hsw1 : startswith (nulExtend ext s) LINE_COMMENT.toList =
      startswith s LINE_COMMENT.toList :=
    startswithL_extend LINE_COMMENT.toList (by decide) s.rest ext
  have hsw2 : startswith (nulExtend ext s) BLOCK_COMMENT_START.toList =
      startswith s BLOCK_COMMENT_START.toList :=
    startswithL_extend BLOCK_COMMENT_START.toList (by decide) s.rest ext
  unfold skipCommentIfPresent at h ⊢
  rw [hsw1, hsw2]
  by_cases h1 : startswith s LINE_COMMENT.toList = true
  · rw [if_pos h1] at h ⊢
    injection h with h2
    injection h2 with hb hs2
    simp only [nulExtend_rest, nulExtend_line, nulExtend_col]
    rw [lineCommentLoop_extend ext s.rest s.line s.col]
    rw [← hb, ← hs2]
    rfl
  · rw [if_neg h1] at h ⊢
    by_cases h2 : startswith s BLOCK_COMMENT_START.toList = true
    · rw [if_pos h2] at h ⊢
      obtain ⟨r2, hr2⟩ := startswithL_decomp BLOCK_COMMENT_START.toList
        (by decide) s.rest h2
      rw [BLOCK_COMMENT_START_toList] at hr2
      have hr2n : s.rest = '/' :: '*' :: r2 := by simpa using hr2
      have hp1 : peek s 0 ≠ '\x00' := by
        rw [peek_cons hr2n]
        decide
      have htl : (advance s).2.rest = '*' :: r2 := by
        rw [advance_rest, hr2n]
        rfl
      have hp2 : peek (advance s).2 0 ≠ '\x00' := by
        rw [peek_cons htl]
        decide
      have ha1 : (advance (nulExtend ext s)).2 = nulExtend ext (advance s).2 := by
        rw [advance_extend ext s (rest_ne_nil_of_peek hp1)]
      have ha2 : (advance (nulExtend ext (advance s).2)).2 =
          nulExtend ext (advance (advance s).2).2 := by
        rw [advance_extend ext (advance s).2 (rest_ne_nil_of_peek hp2)]
      rcases hbl : blockCommentLoop (advance (advance s).2).2.rest
          (advance (advance s).2).2.line (advance (advance s).2).2.col with e2 | cur
      · simp only [hbl] at h
        exact absurd h (by simp)
      · simp only [hbl] at h
        injection h with h3
        injection h3 with hb hs2
        simp only [ha1, ha2, nulExtend_rest, nulExtend_line, nulExtend_col]
        rw [blockCommentLoop_extend ext _ _ _ cur hbl]
        rw [← hb, ← hs2]
        rfl
    · rw [if_neg h2] at h ⊢
      injection h with h3
      injection h3 with hb hs2
      rw [← hb, ← hs2]

theorem lexOperatorGo_extend (ext : List Char) (s : State) (line col : Nat) :
    ∀ cands : List String,
      (∀ op ∈ cands, '\x00' ∉ op.toList ∧ op.toList ≠ []) →
      ∀ t s2, lexOperatorGo s line col cands = some (t, s2) →
        lexOperatorGo (nulExtend ext s) line col cands =
          some (t, nulExtend ext s2) := by
  intro cands
  induction cands with
  | nil =>
    intro _ t s2 h
    exact absurd h (by simp [lexOperatorGo])
  | cons op rest ih =>
    intro hc t s2 h
    rw [lexOperatorGo] at h
    rw [lexOperatorGo]
    have hsw : startswith (nulExtend ext s) op.toList =
        startswith s op.toList :=
      startswithL_extend op.toList (hc op (by simp)).1 s.rest ext
    rw [hsw]
    by_cases hm : startswith s op.toList = true
    · rw [if_pos hm] at h
      rw [if_pos hm]
      obtain ⟨r2, hr2⟩ := startswithL_decomp op.toList (hc op (by simp)).1 s.rest hm
      have hadv : advanceBy s.rest s.line s.col op.length =
          ⟨r2, (posFold op.toList (s.line, s.col)).1,
            (posFold op.toList (s.line, s.col)).2⟩ := by
        rw [hr2]
        exact advanceBy_append op.toList r2 s.line s.col
      have hadv2 : advanceBy (s.rest ++ '\x00' :: ext) s.line s.col op.length =
          ⟨r2 ++ '\x00' :: ext, (posFold op.toList (s.line, s.col)).1,
            (posFold op.toList (s.line, s.col)).2⟩ := by
        rw [hr2, List.append_assoc]
        exact advanceBy_append op.toList (r2 ++ '\x00' :: ext) s.line s.col
      injection h with h2
      injection h2 with h3 h4
      rw [← h3, ← h4]
      simp only [nulExtend, hadv, hadv2]
    · rw [if_neg hm] at h
      rw [if_neg hm]
      exact ih (fun o ho => hc o (List.mem_cons_of_mem op ho)) t s2 h

theorem lexOperator_extend (ext : List Char) (s : State) (t : Token)
    (s2 : State) (h : lexOperator s = some (t, s2)) :
    lexOperator (nulExtend ext s) = some (t, nulExtend ext s2) := by
  unfold lexOperator
  rw [nulExtend_line, nulExtend_col]
  exact lexOperatorGo_extend ext s s.line s.col OPERATORS OPERATORS_wf t s2 h

/-- The simulation, lifted to the whole tokenize loop: a successful run
of the loop is reproduced step for step on the input extended with
`NUL :: ext` after its remaining input — every `peek` returns the same
character on both inputs, since `peek` yields the NUL sentinel both
past end-of-input and at the literal NUL.  Same tokens, same final
cursor, with `NUL :: ext` still unconsumed. -/
theorem tokenizeLoopF_nul_extend (ext : List Char) :
    ∀ f g s acc toks s2, f ≤ g →
      tokenizeLoopF f s acc = .ok (toks, s2) →
      tokenizeLoopF g (nulExtend ext s) acc = .ok (toks, nulExtend ext s2) := by
  intro f
  induction f with
  | zero =>
    intro g s acc toks s2 _ h
    exact absurd h (by simp [tokenizeLoopF])
  | succ f ih =>
    intro g s acc toks s2 hfg h
    rcases g with _ | g
    · exact absurd hfg (by omega)
    have hfg2 : f ≤ g := Nat.le_of_succ_le_succ hfg
    simp only [tokenizeLoopF] at h
    simp only [tokenizeLoopF, peek_nulExtend]
    by_cases h0 : (peek s 0 == '\x00') = true
    · rw [if_pos h0] at h
      rw [if_pos h0]
      injection h with h2
      injection h2 with ha hb
      rw [ha, hb]
    · rw [if_neg h0] at h
      rw [if_neg h0]
      have h0' : peek s 0 ≠ '\x00' := by simpa using h0
      by_cases hws : pyIsSpace (peek s 0) = true
      · rw [if_pos hws] at h
        rw [if_pos hws]
        have ha : (advance (nulExtend ext s)).2 = nulExtend ext (advance s).2 := by
          rw [advance_extend ext s (rest_ne_nil_of_peek h0')]
        rw [ha]
        exact ih g _ acc toks s2 hfg2 h
      · rw [if_neg hws] at h
        rw [if_neg hws]
        by_cases hq : (peek s 0 == '\'' || peek s 0 == '"') = true
        · rw [if_pos hq] at h
          rw [if_pos hq]
          rcases hstr : lexString s with e | ⟨t, s3⟩
          · simp only [hstr] at h
            exact absurd h (by simp)
          · simp only [hstr] at h
            rw [lexString_extend ext s h0' t s3 hstr]
            exact ih g _ _ toks s2 hfg2 h
        · rw [if_neg hq] at h
          rw [if_neg hq]
          rcases hcmt : skipCommentIfPresent s with e | ⟨b, s3⟩
          · simp only [hcmt] at h
            exact absurd h (by simp)
          · simp only [hcmt] at h
            rw [skipCommentIfPresent_extend ext s b s3 hcmt]
            cases b with
            | true => exact ih g _ _ toks s2 hfg2 h
            | false =>
              obtain ⟨_, hfs, _⟩ := skipComment_ok_spec s false s3 hcmt
              have hs3 : s = s3 := (hfs rfl).symm
              subst hs3
              dsimp only at h ⊢
              by_cases hd : pyIsDigit (peek s 0) = true
              · rw [if_pos hd] at h
                rw [if_pos hd]
                rcases hnum : lexNumber s with ⟨t, s4⟩
                have hne : lexNumber (nulExtend ext s) = (t, nulExtend ext s4) := by
                  rw [lexNumber_extend ext s, hnum]
                simp only [hnum] at h
                rw [hne]
                exact ih g _ _ toks s2 hfg2 h
              · rw [if_neg hd] at h
                rw [if_neg hd]
                by_cases hi : (pyIsAlpha (peek s 0) || peek s 0 == '_') = true
                · rw [if_pos hi] at h
                  rw [if_pos hi]
                  rcases hid : lexIdentifierOrKeyword s with ⟨t, s4⟩
                  have hie : lexIdentifierOrKeyword (nulExtend ext s) =
                      (t, nulExtend ext s4) := by
                    rw [lexIdentifierOrKeyword_extend ext s, hid]
                  simp only [hid] at h
                  rw [hie]
                  exact ih g _ _ toks s2 hfg2 h
                · rw [if_neg hi] at h
                  rw [if_neg hi]
                  by_cases hsep : SEPARATORS.contains (peek s 0) = true
                  · rw [if_pos hsep] at h
                    rw [if_pos hsep]
                    rcases hadv : advance s with ⟨c, s4⟩
                    have hae : advance (nulExtend ext s) = (c, nulExtend ext s4) := by
                      rw [advance_extend ext s (rest_ne_nil_of_peek h0'), hadv]
                    simp only [hadv] at h
                    rw [hae]
                    exact ih g _ _ toks s2 hfg2 h
                  · rw [if_neg hsep] at h
                    rw [if_neg hsep]
                    rcases hop : lexOperator s with _ | ⟨t, s4⟩
                    · simp only [hop] at h
                      exact absurd h (by simp)
                    · simp only [hop] at h
                      rw [lexOperator_extend ext s t s4 hop]
                      exact ih g _ _ toks s2 hfg2 h

/-!
## Unfolding `tokenize`
-/

theorem tokenize_ok_elim {src : List Char} {toks : List Token} {s2 : State}
    (h : tokenize src = .ok (toks, s2)) :
    ∃ ts, tokenizeLoopF (src.length + 1) ⟨src, 1, 1, [], []⟩ [] = .ok (ts, s2) ∧
      toks = ts ++ [⟨"EOF", "", s2.line, s2.col⟩] := by
  unfold tokenize at h
  dsimp only at h
  rcases hl : tokenizeLoopF (src.length + 1) ⟨src, 1, 1, [], []⟩ [] with e | ⟨ts, s3⟩
  · rw [hl] at h
    exact absurd h (by simp)
  · rw [hl] at h
    dsimp only at h
    injection h with h2
    injection h2 with ha hb
    subst hb
    exact ⟨ts, rfl, ha.symm⟩

theorem tokenize_error_elim {src : List Char} {e : LexError}
    (h : tokenize src = .error e) :
    tokenizeLoopF (src.length + 1) ⟨src, 1, 1, [], []⟩ [] = .error e := by
  unfold tokenize at h
  dsimp only at h
  rcases hl : tokenizeLoopF (src.length + 1) ⟨src, 1, 1, [], []⟩ [] with e2 | ⟨ts, s3⟩
  · rw [hl] at h
    dsimp only at h
    exact h
  · rw [hl] at h
    exact absurd h (by simp)

theorem insertStr_mem (l : List String) (x : String) : x ∈ insertStr l x := by
  unfold insertStr
  by_cases hc : l.contains x = true
  · rw [if_pos hc]
    simpa using hc
  · rw [if_neg hc]
    exact List.mem_append_right l (List.mem_singleton_self x)

/-!
## The claims
-/

/-- C1, counterexample: on input `/*x` the block comment opener is at
line 1 column 1, but `tokenize` reports the unterminated-block-comment
error at line 1 column 4 — the position of end-of-input, not the
opener's position, refuting the claim as stated. -/
theorem C1_counterexample :
    tokenize ['/', '*', 'x'] = .error (.unterminatedBlockComment 1 4) ∧
    ((1 : Nat), (4 : Nat)) ≠ ((1 : Nat), (1 : Nat)) :=
  ⟨rfl, by decide⟩

/-- C1, amended: if end-of-input is reached inside a block comment,
`tokenize` fails with an UnterminatedBlockComment error whose reported
line:column is the cursor position at end-of-input (the position
obtained by advancing over the entire NUL-free input), not the position
of the comment's opener. -/
theorem C1_unterminated_block_comment_position (src : List Char) (l c : Nat)
    (hn : '\x00' ∉ src)
    (h : tokenize src = .error (.unterminatedBlockComment l c)) :
    (l, c) = posFold src (1, 1) :=
  tokenizeLoopF_ubc (src.length + 1) ⟨src, 1, 1, [], []⟩ [] l c hn
    (tokenize_error_elim h)

/-- C1, witness for the amended theorem at input `/*x`. -/
theorem C1_witness : ((1 : Nat), (4 : Nat)) = posFold ['/', '*', 'x'] (1, 1) :=
  C1_unterminated_block_comment_position ['/', '*', 'x'] 1 4 (by decide) rfl

/-- C2, counterexample: on input `a NUL b` (a literal NUL character in
the middle), `tokenize` succeeds but leaves the NUL and everything
after it unconsumed, refuting "every character of the input is consumed
exactly once" for arbitrary successful inputs. -/
theorem C2_counterexample :
    tokenize ['a', '\x00', 'b'] =
      .ok ([⟨"IDENT", "a", 1, 1⟩, ⟨"EOF", "", 1, 2⟩],
        ⟨['\x00', 'b'], 1, 2, ["a"], []⟩) ∧
    (['\x00', 'b'] : List Char) ≠ [] :=
  ⟨rfl, by decide⟩

/-- C2, amended: for every NUL-free input on which `tokenize` succeeds,
every character of the input is consumed: the remaining input of the
final scanner state is empty, and the final cursor position is the fold
of the per-character position update over the whole input — each
character was consumed exactly once (the scanner consumes one character
per cursor step and never backtracks). -/
theorem C2_all_input_consumed (src : List Char) (toks : List Token)
    (s2 : State) (hn : '\x00' ∉ src) (h : tokenize src = .ok (toks, s2)) :
    s2.rest = [] ∧ (s2.line, s2.col) = posFold src (1, 1) := by
  obtain ⟨ts, hl, _⟩ := tokenize_ok_elim h
  obtain ⟨hp, hsc, _⟩ := tokenizeLoopF_ok _ _ _ _ _ hl
  have hrest : s2.rest = [] := by
    cases hr : s2.rest with
    | nil => rfl
    | cons c cs =>
      have hc0 : c = '\x00' := by
        rw [← peek_cons hr]
        exact hp
      have hmem : c ∈ s2.rest := by
        rw [hr]
        exact List.mem_cons_self c cs
      have : c ∈ src := Consumes.mem hsc hmem
      rw [hc0] at this
      exact absurd this hn
  refine ⟨hrest, ?_⟩
  have hpf := hsc.posFold
  rw [hrest] at hpf
  rw [hpf]
  rfl

/-- C2, witness for the amended theorem at input `ab`. -/
theorem C2_witness :
    (⟨[], 1, 3, ["ab"], []⟩ : State).rest = [] ∧
    ((1 : Nat), (3 : Nat)) = posFold "ab".toList (1, 1) :=
  C2_all_input_consumed "ab".toList
    [⟨"IDENT", "ab", 1, 1⟩, ⟨"EOF", "", 1, 3⟩]
    ⟨[], 1, 3, ["ab"], []⟩ (by decide) rfl

/-- C3: in the fixed operator candidate list (tried in order, first
full match wins) no earlier candidate is a proper prefix of a later
one, so no shorter operator is tried before a longer operator sharing
its prefix; in particular `===` lexes as a single OP token `===`, not
as `==` followed by `=`. -/
theorem C3_operator_first_match_order :
    (OPERATORS.Pairwise fun a b => ¬(a ≠ b ∧ a.toList.isPrefixOf b.toList)) ∧
    tokenize "===".toList =
      .ok ([⟨"OP", "===", 1, 1⟩, ⟨"EOF", "", 1, 4⟩], ⟨[], 1, 4, [], []⟩) :=
  ⟨by decide, rfl⟩

/-- C4: the number grammar — `5.1e3` is one FLOAT token, `1e-2` is one
FLOAT token, and `2.x` is the three tokens INT `2`, SEP `.`, IDENT `x`
(the fractional part is consumed only when a digit follows the dot, the
exponent only when a digit or sign-and-digit follows `e`/`E`). -/
theorem C4_number_grammar :
    tokenize "5.1e3".toList =
      .ok ([⟨"FLOAT", "5.1e3", 1, 1⟩, ⟨"EOF", "", 1, 6⟩],
        ⟨[], 1, 6, [], ["5.1e3"]⟩) ∧
    tokenize "1e-2".toList =
      .ok ([⟨"FLOAT", "1e-2", 1, 1⟩, ⟨"EOF", "", 1, 5⟩],
        ⟨[], 1, 5, [], ["1e-2"]⟩) ∧
    tokenize "2.x".toList =
      .ok ([⟨"INT", "2", 1, 1⟩, ⟨"SEP", ".", 1, 2⟩, ⟨"IDENT", "x", 1, 3⟩,
        ⟨"EOF", "", 1, 4⟩], ⟨[], 1, 4, ["x"], ["2"]⟩) :=
  ⟨rfl, rfl, rfl⟩

/-- C5: inside a single-quoted string literal, two consecutive single
quotes decode to one literal single quote and do not terminate the
literal: the 16-character input consisting of a single-quoted literal
containing `He said ` and a doubled-quoted `hi` produces one STRING
token whose decoded text is the 12 characters of `He said `, quote,
`hi`, quote. -/
theorem C5_single_quote_doubling :
    tokenize ['\'', 'H', 'e', ' ', 's', 'a', 'i', 'd', ' ', '\'', '\'',
        'h', 'i', '\'', '\'', '\''] =
      .ok ([⟨"STRING", String.mk ['H', 'e', ' ', 's', 'a', 'i', 'd', ' ',
          '\'', 'h', 'i', '\''], 1, 1⟩, ⟨"EOF", "", 1, 17⟩],
        ⟨[], 1, 17, [],
          [String.mk ['H', 'e', ' ', 's', 'a', 'i', 'd', ' ',
            '\'', 'h', 'i', '\'']]⟩) := rfl

/-- C6: the escape table maps exactly `n`, `t`, backslash, single quote
and double quote; any other escaped character keeps both the backslash
and the character (passthrough, no error).  Input `"a\qb"` decodes to
content `a`, backslash, `q`, `b`; input `"a\nb"` decodes the mapped
newline. -/
theorem C6_escape_table_and_passthrough :
    escapes 'n' = some '\n' ∧ escapes 't' = some '\t' ∧
    escapes '\\' = some '\\' ∧ escapes '\'' = some '\'' ∧
    escapes '"' = some '"' ∧
    (∀ c : Char, c ≠ 'n' → c ≠ 't' → c ≠ '\\' → c ≠ '\'' → c ≠ '"' →
      escapes c = none) ∧
    tokenize ['"', 'a', '\\', 'q', 'b', '"'] =
      .ok ([⟨"STRING", String.mk ['a', '\\', 'q', 'b'], 1, 1⟩,
        ⟨"EOF", "", 1, 7⟩],
        ⟨[], 1, 7, [], [String.mk ['a', '\\', 'q', 'b']]⟩) ∧
    tokenize ['"', 'a', '\\', 'n', 'b', '"'] =
      .ok ([⟨"STRING", String.mk ['a', '\n', 'b'], 1, 1⟩,
        ⟨"EOF", "", 1, 7⟩],
        ⟨[], 1, 7, [], [String.mk ['a', '\n', 'b']]⟩) := by
  refine ⟨rfl, rfl, rfl, rfl, rfl, ?_, rfl, rfl⟩
  intro c h1 h2 h3 h4 h5
  simp [escapes, h1, h2, h3, h4, h5]

/-- C6, witness for the passthrough component at the character `q`. -/
theorem C6_witness : escapes 'q' = none :=
  C6_escape_table_and_passthrough.2.2.2.2.2.1 'q' (by decide) (by decide)
    (by decide) (by decide) (by decide)

/-- C7: whenever `lex_string` fails it fails with an UnterminatedString
error carrying the line and column the scanner was at when the string
started — the opening quote's position; in particular tokenizing `"abc`
(no closing quote) fails with UnterminatedString at 1:1. -/
theorem C7_unterminated_string_position :
    (∀ s e, lexString s = .error e → e = .unterminatedString s.line s.col) ∧
    tokenize ['"', 'a', 'b', 'c'] = .error (.unterminatedString 1 1) :=
  ⟨lexString_error_shape, rfl⟩

/-- C7, witness at the state whose remaining input is `"a`. -/
theorem C7_witness :
    LexError.unterminatedString 1 1 = LexError.unterminatedString 1 1 :=
  C7_unterminated_string_position.1 ⟨['"', 'a'], 1, 1, [], []⟩
    (.unterminatedString 1 1) rfl

/-- C8: every successful `tokenize` returns a non-empty token sequence
whose last element is the EOF token (the spec's END token) with empty
text, positioned at the final cursor location; no other token in the
sequence has type EOF. -/
theorem C8_eof_token_last (src : List Char) (toks : List Token) (s2 : State)
    (h : tokenize src = .ok (toks, s2)) :
    toks ≠ [] ∧ toks.getLast? = some ⟨"EOF", "", s2.line, s2.col⟩ ∧
    ∀ t ∈ toks.dropLast, t.type ≠ "EOF" := by
  obtain ⟨ts, hl, heq⟩ := tokenize_ok_elim h
  obtain ⟨_, _, htk⟩ := tokenizeLoopF_ok _ _ _ _ _ hl
  subst heq
  refine ⟨by simp, ?_, ?_⟩
  · rw [List.getLast?_concat]
  · rw [List.dropLast_concat]
    intro t ht
    rcases htk t ht with hin | hne
    · exact absurd hin (List.not_mem_nil t)
    · exact hne

/-- C8, witness at input `a`. -/
theorem C8_witness :
    ([⟨"IDENT", "a", 1, 1⟩, ⟨"EOF", "", 1, 2⟩] : List Token) ≠ [] ∧
    ([⟨"IDENT", "a", 1, 1⟩, ⟨"EOF", "", 1, 2⟩] : List Token).getLast? =
      some ⟨"EOF", "", 1, 2⟩ ∧
    ∀ t ∈ ([⟨"IDENT", "a", 1, 1⟩,
        ⟨"EOF", "", 1, 2⟩] : List Token).dropLast, t.type ≠ "EOF" :=
  C8_eof_token_last ['a'] [⟨"IDENT", "a", 1, 1⟩, ⟨"EOF", "", 1, 2⟩]
    ⟨[], 1, 2, ["a"], []⟩ rfl

/-- C9: a maximal letter/digit/underscore run whose text is in the
keyword set becomes a KW token and the identifier table is unchanged;
any other run becomes an IDENT token and its text is inserted into (and
so a member of) the identifier table.  In particular `true` lexes as KW
with an empty identifier table and `truex` lexes as IDENT with `truex`
in the table. -/
theorem C9_keyword_identifier_partition :
    (∀ s t s2, lexIdentifierOrKeyword s = (t, s2) →
      (t.value ∈ KEYWORDS ∧ t.type = "KW" ∧
        s2.identifiers = s.identifiers) ∨
      (t.value ∉ KEYWORDS ∧ t.type = "IDENT" ∧
        s2.identifiers = insertStr s.identifiers t.value ∧
        t.value ∈ s2.identifiers)) ∧
    tokenize "true".toList =
      .ok ([⟨"KW", "true", 1, 1⟩, ⟨"EOF", "", 1, 5⟩], ⟨[], 1, 5, [], []⟩) ∧
    tokenize "truex".toList =
      .ok ([⟨"IDENT", "truex", 1, 1⟩, ⟨"EOF", "", 1, 6⟩],
        ⟨[], 1, 6, ["truex"], []⟩) := by
  refine ⟨?_, rfl, rfl⟩
  intro s t s2 h
  rcases hl : lexIdentLoop s.rest s.line s.col [] with ⟨cs, cur⟩
  by_cases hk : String.mk cs ∈ KEYWORDS
  · left
    have he : lexIdentifierOrKeyword s =
        (⟨"KW", String.mk cs, s.line, s.col⟩,
         { s with rest := cur.rest, line := cur.line, col := cur.col }) := by
      simp [lexIdentifierOrKeyword, hl, hk]
    rw [he] at h
    injection h with h1 h2
    rw [← h1, ← h2]
    exact ⟨hk, rfl, rfl⟩
  · right
    have he : lexIdentifierOrKeyword s =
        (⟨"IDENT", String.mk cs, s.line, s.col⟩,
         { rest := cur.rest, line := cur.line, col := cur.col,
           identifiers := insertStr s.identifiers (String.mk cs),
           constants := s.constants }) := by
      simp [lexIdentifierOrKeyword, hl, hk]
    rw [he] at h
    injection h with h1 h2
    rw [← h1, ← h2]
    exact ⟨hk, rfl, rfl, insertStr_mem s.identifiers (String.mk cs)⟩

/-- C9, witness at the keyword `true` scanned from a fresh state. -/
theorem C9_witness :
    ((⟨"KW", "true", 1, 1⟩ : Token).value ∈ KEYWORDS ∧
      (⟨"KW", "true", 1, 1⟩ : Token).type = "KW" ∧
      (⟨[], 1, 5, [], []⟩ : State).identifiers =
        (⟨"true".toList, 1, 1, [], []⟩ : State).identifiers) ∨
    ((⟨"KW", "true", 1, 1⟩ : Token).value ∉ KEYWORDS ∧
      (⟨"KW", "true", 1, 1⟩ : Token).type = "IDENT" ∧
      (⟨[], 1, 5, [], []⟩ : State).identifiers =
        insertStr (⟨"true".toList, 1, 1, [], []⟩ : State).identifiers
          (⟨"KW", "true", 1, 1⟩ : Token).value ∧
      (⟨"KW", "true", 1, 1⟩ : Token).value ∈
        (⟨[], 1, 5, [], []⟩ : State).identifiers) :=
  C9_keyword_identifier_partition.1 ⟨"true".toList, 1, 1, [], []⟩
    ⟨"KW", "true", 1, 1⟩ ⟨[], 1, 5, [], []⟩ rfl

/-- C10, counterexample: the input `@ NUL b` contains a literal NUL
outside any string or block comment, yet `tokenize` does not return
successfully: the scan fails with an UnexpectedCharacter error at the
`@` before ever reaching the NUL, so "tokenize stops at the first such
NUL ... and returns successfully" does not hold for every input with a
NUL outside strings and block comments. -/
theorem C10_counterexample :
    tokenize ['@', '\x00', 'b'] = .error (.unexpectedChar '@' 1 1) ∧
    '\x00' ∈ ['@', '\x00', 'b'] :=
  ⟨rfl, by decide⟩

/-- C10, amended: a literal NUL in the source behaves exactly like
end-of-input, provided the prefix before it is lexable: for every
NUL-free input `pre` that `tokenize` accepts, `tokenize` also accepts
`pre ++ NUL :: ext` for arbitrary `ext`, stopping the scan at the NUL —
same tokens, the EOF token at the NUL's position, and the NUL together
with every character after it left unconsumed and untokenized; in
particular `a NUL b ! $` tokenizes to IDENT `a` and EOF at 1:2 with
`NUL b ! $` unconsumed and no UnexpectedCharacter error for the NUL.
(When a character before the first NUL is not lexable, the scan fails
on it before reaching the NUL, as in the counterexample `@ NUL b`.) -/
theorem C10_nul_stops_scan :
    (∀ pre ext toks s2, '\x00' ∉ pre → tokenize pre = .ok (toks, s2) →
      tokenize (pre ++ '\x00' :: ext) =
        .ok (toks, ⟨'\x00' :: ext, s2.line, s2.col,
          s2.identifiers, s2.constants⟩)) ∧
    tokenize ['a', '\x00', 'b', '!', '$'] =
      .ok ([⟨"IDENT", "a", 1, 1⟩, ⟨"EOF", "", 1, 2⟩],
        ⟨['\x00', 'b', '!', '$'], 1, 2, ["a"], []⟩) := by
  refine ⟨?_, rfl⟩
  intro pre ext toks s2 hn h
  obtain ⟨ts, hl, htoks⟩ := tokenize_ok_elim h
  obtain ⟨hp, hsc, _⟩ := tokenizeLoopF_ok _ _ _ _ _ hl
  have hrest : s2.rest = [] := by
    cases hr : s2.rest with
    | nil => rfl
    | cons c cs =>
      have hc0 : c = '\x00' := by
        rw [← peek_cons hr]
        exact hp
      have hmem : c ∈ s2.rest := by
        rw [hr]
        exact List.mem_cons_self c cs
      have : c ∈ pre := Consumes.mem hsc hmem
      rw [hc0] at this
      exact absurd this hn
  have hml := tokenizeLoopF_nul_extend ext (pre.length + 1)
    ((pre ++ '\x00' :: ext).length + 1) ⟨pre, 1, 1, [], []⟩ [] ts s2
    (by simp only [List.length_append, List.length_cons]; omega) hl
  have hst : nulExtend ext (⟨pre, 1, 1, [], []⟩ : State) =
      ⟨pre ++ '\x00' :: ext, 1, 1, [], []⟩ := rfl
  rw [hst] at hml
  have hfinal : nulExtend ext s2 =
      ⟨'\x00' :: ext, s2.line, s2.col, s2.identifiers, s2.constants⟩ := by
    unfold nulExtend
    rw [hrest, List.nil_append]
  unfold tokenize
  dsimp only
  rw [hml]
  dsimp only
  rw [htoks, hfinal]

/-- C10, witness for the amended theorem at the NUL-free prefix `a`
extended with `NUL b ! $`. -/
theorem C10_witness :
    tokenize (['a'] ++ '\x00' :: ['b', '!', '$']) =
      .ok ([⟨"IDENT", "a", 1, 1⟩, ⟨"EOF", "", 1, 2⟩],
        ⟨'\x00' :: ['b', '!', '$'], 1, 2, ["a"], []⟩) :=
  C10_nul_stops_scan.1 ['a'] ['b', '!', '$']
    [⟨"IDENT", "a", 1, 1⟩, ⟨"EOF", "", 1, 2⟩] ⟨[], 1, 2, ["a"], []⟩
    (by decide) rfl

end Lexer
